import Mathlib

/-!
Verification of the Interbanking statement-download script (`extractos.py`).

The embedding models the parts of the program the specification speaks about:

* `ultimo_dia_habil` — the previous-business-day computation
  (`(pd.Timestamp(hoy) - BDay(1)).date()`).  Calendar dates are modelled by
  the `Date` structure together with the standard civil-calendar
  conversions (`days_from_civil` / `civil_from_days`, the algorithms used
  by date libraries); the pandas `BusinessDay(-1)` shift is embedded as
  `bday_apply (-1)` following the library's arithmetic on weekdays.
* `estandarizar` — the normalizer.  A data frame is a list of column
  names, an index, and a list of rows (`DF`); records are association
  lists of field name to value (`Record`).  The pipeline mirrors the
  source line by line: `json_normalize`, the date-column rename, the
  provider-field rename, `to_datetime` + `sort_values` (a stable sort;
  the library sorts by the parsed date column, NaT last), and
  `drop_duplicates` + `reset_index`.  Steps that can raise in the
  library (unparseable dates, a duplicated `Fecha` column, an empty
  dedup subset on a non-empty frame) return `none`.
* `obtener_token` / `descargar_extractos` — the response-processing part
  of the two HTTP calls, as functions of the received response
  (`HttpResponse`): `raise_for_status` plus field extraction.
-/

/-! ## Calendar dates and the business-day shift -/

structure Date where
  year : Int
  month : Int
  day : Int
deriving DecidableEq, Repr

/-- Days since 1970-01-01 of a civil date (the standard civil-calendar
conversion used by date libraries; `/` on `Int` is floor division for the
positive divisors used here, matching the reference algorithm). -/
def days_from_civil (y0 m d : Int) : Int :=
  let y := if m ≤ 2 then y0 - 1 else y0
  let era := y / 400
  let yoe := y - era * 400
  let doy := (153 * (m + (if m > 2 then -3 else 9)) + 2) / 5 + d - 1
  let doe := yoe * 365 + yoe / 4 - yoe / 100 + doy
  era * 146097 + doe - 719468

/-- Civil date from days since 1970-01-01 (inverse of `days_from_civil`). -/
def civil_from_days (z0 : Int) : Date :=
  let z := z0 + 719468
  let era := z / 146097
  let doe := z - era * 146097
  let yoe := (doe - doe / 1460 + doe / 36524 - doe / 146096) / 365
  let y := yoe + era * 400
  let doy := doe - (365 * yoe + yoe / 4 - yoe / 100)
  let mp := (5 * doy + 2) / 153
  let d := doy - (153 * mp + 2) / 5 + 1
  let m := mp + (if mp < 10 then 3 else -9)
  ⟨(if m ≤ 2 then y + 1 else y), m, d⟩

def toDays (d : Date) : Int := days_from_civil d.year d.month d.day

/-- Python's `date.weekday()` on a day number: Monday = 0 … Sunday = 6
(1970-01-01, day 0, was a Thursday, weekday 3). -/
def python_weekday (z : Int) : Int := (z + 3) % 7

/-- The pandas `BusinessDay(n)` shift applied to day number `z`
(the library's weekday arithmetic; `/` is floor division as in Python). -/
def bday_apply (n : Int) (z : Int) : Int :=
  let wday := python_weekday z
  let weeks := n / 5
  let n1 := if n ≤ 0 ∧ wday > 4 then n + 1 else n
  let n2 := n1 - 5 * weeks
  let days :=
    if n2 = 0 ∧ wday > 4 then 4 - wday
    else if wday > 4 then (7 - wday) + (n2 - 1)
    else if wday + n2 ≤ 4 then n2
    else n2 + 2
  z + 7 * weeks + days

/-- `ultimo_dia_habil` from the source: `(pd.Timestamp(hoy) - BDay(1)).date()`,
i.e. the `BusinessDay(-1)` shift on the date's day number. -/
def ultimo_dia_habil (hoy : Date) : Date :=
  civil_from_days (bday_apply (-1) (toDays hoy))

/-- Day number of the last Friday strictly before day `z`. -/
def precedingFriday (z : Int) : Int :=
  z - ((python_weekday z - 5) % 7 + 1)

/-! ## Values, records and data frames -/

inductive Val where
  | str : String → Val
  | num : Int → Val
  | nan : Val
  | dt : Int → Val
deriving DecidableEq, Repr

/-- A raw statement record: an association list of provider field names to
values (a flat JSON object). -/
abbrev Record : Type := List (String × Val)

/-- A pandas data frame: column names, row index labels, rows. -/
structure DF where
  cols : List String
  index : List Nat
  rows : List (List Val)
deriving DecidableEq, Repr

/-- Append a column name if it is not yet present. -/
def insertCol (acc : List String) (c : String) : List String :=
  if c ∈ acc then acc else acc ++ [c]

/-- Union of the records' field names, in order of first appearance. -/
def collectCols (movs : List Record) : List String :=
  movs.foldl (fun acc r => r.foldl (fun a kv => insertCol a kv.1) acc) []

/-- Value of field `c` in a record, `nan` when absent. -/
def recGet (r : Record) (c : String) : Val :=
  ((r.find? (fun kv => kv.1 == c)).map (fun kv => kv.2)).getD Val.nan

/-- `pd.json_normalize` on a list of flat records: columns are the union of
the field names in first-appearance order, missing fields become `nan`,
the index is a fresh range. -/
def json_normalize (movs : List Record) : DF :=
  let cols := collectCols movs
  ⟨cols, List.range movs.length, movs.map (fun r => cols.map (fun c => recGet r c))⟩

/-- Rename a single column name through a rename table (`df.rename`). -/
def applyRen (m : List (String × String)) (c : String) : String :=
  ((m.find? (fun kv => kv.1 == c)).map (fun kv => kv.2)).getD c

/-- `df.rename(columns=…)`: every column name is mapped through the table. -/
def renameCols (m : List (String × String)) (df : DF) : DF :=
  ⟨df.cols.map (applyRen m), df.index, df.rows⟩

/-- The provider-field rename table from the source. -/
def mapping : List (String × String) :=
  [("description", "Concepto"), ("debitAmount", "Debito"),
   ("creditAmount", "Credito"), ("balance", "Saldo"), ("bankId", "Banco")]

/-- ASCII lower-casing of a character code (`str.lower` on the column
names used here). -/
def lowerNat (n : Nat) : Nat := if 65 ≤ n ∧ n ≤ 90 then n + 32 else n

def isPrefixN : List Nat → List Nat → Bool
  | [], _ => true
  | _ :: _, [] => false
  | a :: as, b :: bs => a == b && isPrefixN as bs

def hasSubN (pat : List Nat) : List Nat → Bool
  | [] => isPrefixN pat []
  | c :: rest => isPrefixN pat (c :: rest) || hasSubN pat rest

/-- `"date" in c.lower()`: the column name contains "date", case-insensitively. -/
def containsDate (c : String) : Bool :=
  hasSubN (("date").toList.map Char.toNat) (c.toList.map (fun ch => lowerNat ch.toNat))

def nsPerDay : Int := 86400000000000

def parseNatCore : List Char → Nat → Option Nat
  | [], acc => some acc
  | c :: cs, acc => if c.isDigit then parseNatCore cs (acc * 10 + (c.toNat - 48)) else none

def parseNatL : List Char → Option Nat
  | [] => none
  | c :: cs => parseNatCore (c :: cs) 0

/-- Split a character list on the dash separator (`s.split("-")`). -/
def splitOnDash : List Char → List (List Char)
  | [] => [[]]
  | c :: cs =>
    if c = Char.ofNat 45 then [] :: splitOnDash cs
    else
      match splitOnDash cs with
      | [] => [[c]]
      | p :: ps => (c :: p) :: ps

/-- Parse an ISO `YYYY-MM-DD` string to its day number. -/
def parseISO (s : String) : Option Int :=
  match splitOnDash s.toList with
  | [ys, ms, ds] =>
    match parseNatL ys, parseNatL ms, parseNatL ds with
    | some y, some m, some d =>
      if 1 ≤ m ∧ m ≤ 12 ∧ 1 ≤ d ∧ d ≤ 31 then some (days_from_civil y m d) else none
    | _, _, _ => none
  | _ => none

/-- `pd.to_datetime` on one cell: timestamps pass through, `NaN` becomes
`NaT` (both modelled by `nan`), integers are nanoseconds since the epoch,
ISO date strings parse to midnight; anything else raises (`none`). -/
def to_datetime1 : Val → Option Val
  | Val.nan => some Val.nan
  | Val.dt n => some (Val.dt n)
  | Val.num n => some (Val.dt n)
  | Val.str s => (parseISO s).map (fun d => Val.dt (d * nsPerDay))

/-- Parse the `j`-th cell of every row (`pd.to_datetime(df["Fecha"])`);
`none` when any cell fails to parse. -/
def parseRows (j : Nat) : List (List Val) → Option (List (List Val))
  | [] => some []
  | r :: rs =>
    (to_datetime1 (r.getD j Val.nan)).bind fun v =>
      (parseRows j rs).map fun rest => r.set j v :: rest

/-- Comparison used by `sort_values("Fecha")`: timestamps ascending,
`NaT` (and anything else) last. -/
def fechaLe (a b : Val) : Bool :=
  match a, b with
  | Val.dt x, Val.dt y => x ≤ y
  | Val.dt _, _ => true
  | _, Val.dt _ => false
  | _, _ => true

def insertLe (le : α → α → Bool) (x : α) : List α → List α
  | [] => [x]
  | y :: ys => if le x y then x :: y :: ys else y :: insertLe le x ys

/-- Stable insertion sort (the observable behaviour of `sort_values`). -/
def sortLe (le : α → α → Bool) : List α → List α
  | [] => []
  | x :: xs => insertLe le x (sortLe le xs)

/-- Index of the `Fecha` column. -/
def fechaIdx (cols : List String) : Nat := cols.findIdx (fun c => c == "Fecha")

/-- A cell is a timestamp or missing (`NaT`); the shape of every cell of a
parsed `Fecha` column. -/
def isDtNan (v : Val) : Prop := (∃ n, v = Val.dt n) ∨ v = Val.nan

/-- Row comparison used to sort by the `Fecha` column at index `j`. -/
def leRowAt (j : Nat) (r s : List Val) : Bool :=
  fechaLe (r.getD j Val.nan) (s.getD j Val.nan)

/-- Well-formedness of a frame: one index label per row, one cell per column. -/
def WF (df : DF) : Prop :=
  df.index.length = df.rows.length ∧ ∀ r ∈ df.rows, r.length = df.cols.length

/-- Lines 80–82 of the source: if a `Fecha` column is present, parse it with
`to_datetime` and sort by it.  A duplicated `Fecha` column makes
`pd.to_datetime(df["Fecha"])` raise (it receives a frame, not a series),
and an unparseable cell raises; both are `none`. -/
def sortStep (df : DF) : Option DF :=
  if ("Fecha" : String) ∈ df.cols then
    if 2 ≤ df.cols.count ("Fecha") then none
    else
      let j := fechaIdx df.cols
      match parseRows j df.rows with
      | none => none
      | some rs =>
        let prs := sortLe (fun a b => leRowAt j a.2 b.2) (df.index.zip rs)
        some ⟨df.cols, prs.map Prod.fst, prs.map Prod.snd⟩
  else some df

/-- The dedup key of a row: the values of the columns whose name is in
`subset`, in column order (as `DataFrame.duplicated` collects them). -/
def rowKey (cols : List String) (subset : List String) (r : List Val) : List Val :=
  ((cols.enum).filter (fun p => subset.contains p.2)).map (fun p => r.getD p.1 Val.nan)

/-- Keep the rows whose key was not seen before (`keep="first"`). -/
def dropDupAux (key : List Val → List Val) :
    List (Nat × List Val) → List (List Val) → List (Nat × List Val)
  | [], _ => []
  | p :: rest, seen =>
    if key p.2 ∈ seen then dropDupAux key rest seen
    else p :: dropDupAux key rest (key p.2 :: seen)

/-- `df.drop_duplicates(subset=…)`.  On a frame with rows, an empty column
set or an empty `subset` makes `DataFrame.duplicated` raise (the library
unpacks a factorization of zero columns), hence `none`. -/
def drop_duplicates (df : DF) (subset : List String) : Option DF :=
  if df.rows.isEmpty then some df
  else if df.cols.isEmpty then none
  else if subset.isEmpty then none
  else
    let prs := dropDupAux (rowKey df.cols subset) (df.index.zip df.rows) []
    some ⟨df.cols, prs.map Prod.fst, prs.map Prod.snd⟩

/-- `reset_index(drop=True)`: relabel rows `0, 1, 2, …`. -/
def reset_index (df : DF) : DF :=
  ⟨df.cols, List.range df.rows.length, df.rows⟩

/-- The dedup subset from the source: the canonical key columns that are
actually present. -/
def keyColsOf (cols : List String) : List String :=
  (["Fecha", "Concepto", "Debito", "Credito", "Saldo"] : List String).filter
    (fun c => cols.contains c)

/-- Lines 69–71 of the source: rename the first column containing "date"
(case-insensitively) to `Fecha`, if there is one. -/
def dateRename (df : DF) : DF :=
  match df.cols.filter containsDate with
  | [] => df
  | c :: _ => renameCols [(c, "Fecha")] df

/-- `estandarizar` from the source, line by line. -/
def estandarizar (movs : List Record) : Option DF :=
  if movs.isEmpty then some ⟨[], [], []⟩
  else
    match sortStep (renameCols mapping (dateRename (json_normalize movs))) with
    | none => none
    | some df3 =>
      match drop_duplicates df3 (keyColsOf df3.cols) with
      | none => none
      | some df4 => some (reset_index df4)

/-- Re-flatten a frame into a record list (row by row, column by column). -/
def toRecords (df : DF) : List Record :=
  df.rows.map (fun r => df.cols.zip r)

/-- Written from the specification's words for the dedup step: keep the
first occurrence, in order, of every key combination. -/
def specDedupFirst (key : List Val → List Val) (rows : List (List Val)) : List (List Val) :=
  rows.foldl (fun acc r => if key r ∈ acc.map key then acc else acc ++ [r]) []

/-! ## HTTP response processing -/

inductive Json where
  | str : String → Json
  | num : Int → Json
  | bool : Bool → Json
  | null : Json
  | arr : List Json → Json
  | obj : List (String × Json) → Json
deriving BEq

structure HttpResponse where
  status : Nat
  body : Json

/-- `requests` raises for 4xx and 5xx status codes. -/
def http_error (s : Nat) : Bool := decide (400 ≤ s) && decide (s < 600)

/-- `resp.raise_for_status()`. -/
def raise_for_status (resp : HttpResponse) : Except String Unit :=
  if http_error resp.status then Except.error ("HTTPError") else Except.ok ()

/-- `obtener_token`, as a function of the token endpoint's response:
raise for a non-success status, then return `resp.json()["access_token"]`
(a missing key or a non-object body raises). -/
def obtener_token (resp : HttpResponse) : Except String Json :=
  match raise_for_status resp with
  | Except.error e => Except.error e
  | Except.ok _ =>
    match resp.body with
    | Json.obj kvs =>
      match kvs.find? (fun kv => kv.1 == "access_token") with
      | some kv => Except.ok kv.2
      | none => Except.error ("KeyError")
    | _ => Except.error ("TypeError")

/-- `descargar_extractos`, as a function of the statement endpoint's
response: raise for a non-success status, then
`data.get("statements", []) if isinstance(data, dict) else data`. -/
def descargar_extractos (resp : HttpResponse) : Except String Json :=
  match raise_for_status resp with
  | Except.error e => Except.error e
  | Except.ok _ =>
    match resp.body with
    | Json.obj kvs =>
      Except.ok ((((kvs.find? (fun kv => kv.1 == "statements")).map
        (fun kv => kv.2))).getD (Json.arr []))
    | d => Except.ok d

def exceptIsOk : Except String Json → Bool
  | Except.ok _ => true
  | Except.error _ => false

/-- Whether a response body is an object containing `access_token`. -/
def hasAccessToken : Json → Bool
  | Json.obj kvs => (kvs.find? (fun kv => kv.1 == "access_token")).isSome
  | _ => false

/-! ## Theorems -/

set_option maxHeartbeats 4000000 in
theorem yoe_core (doe b e f g c d : Int)
    (hd1 : 0 ≤ doe) (hd2 : doe ≤ 146096)
    (he : 1460 * e ≤ doe ∧ doe < 1460 * (e + 1))
    (hf : 36524 * f ≤ doe ∧ doe < 36524 * (f + 1))
    (hg : 146096 * g ≤ doe ∧ doe < 146096 * (g + 1))
    (hb : 365 * b ≤ doe - e + f - g ∧ doe - e + f - g < 365 * (b + 1))
    (hc : 4 * c ≤ b ∧ b < 4 * (c + 1))
    (hdd : 100 * d ≤ b ∧ b < 100 * (d + 1)) :
    0 ≤ b ∧ b ≤ 399 ∧ 365 * b + c - d ≤ doe ∧ doe - (365 * b + c - d) ≤ 365 := by
  have hb1 : 0 ≤ b := by omega
  have hb2 : b ≤ 400 := by omega
  interval_cases b <;> omega

set_option maxHeartbeats 1000000 in
theorem days_civil_inv (z : Int) : toDays (civil_from_days z) = z := by
  unfold toDays civil_from_days days_from_civil
  dsimp only
  set A := z + 719468 with hA
  set era := A / 146097 with hera
  set doe := A - era * 146097 with hdoe
  set yoe := (doe - doe / 1460 + doe / 36524 - doe / 146096) / 365 with hyoe
  set doy := doe - (365 * yoe + yoe / 4 - yoe / 100) with hdoy
  set mp := (5 * doy + 2) / 153 with hmp
  have hcore := yoe_core doe yoe (doe / 1460) (doe / 36524) (doe / 146096)
    (yoe / 4) (yoe / 100) (by omega) (by omega) (by omega) (by omega) (by omega)
    (by omega) (by omega) (by omega)
  have hk : (yoe + era * 400) / 400 = era := by omega
  by_cases hm : mp < 10
  · simp only [if_pos hm]
    split_ifs <;>
      (try simp only [add_neg_cancel_right, neg_add_cancel_right, add_sub_cancel_right]) <;>
      (try rw [hk]) <;> (try simp only [add_sub_cancel_right]) <;> omega
  · simp only [if_neg hm]
    split_ifs <;>
      (try simp only [add_neg_cancel_right, neg_add_cancel_right, add_sub_cancel_right]) <;>
      (try rw [hk]) <;> (try simp only [add_sub_cancel_right]) <;> omega

theorem bday_m1 (z : Int) :
    (python_weekday z = 0 → bday_apply (-1) z = z - 3) ∧
    (1 ≤ python_weekday z ∧ python_weekday z ≤ 4 → bday_apply (-1) z = z - 1) ∧
    (python_weekday z = 5 → bday_apply (-1) z = z - 1) ∧
    (python_weekday z = 6 → bday_apply (-1) z = z - 2) := by
  unfold bday_apply python_weekday
  dsimp only
  split_ifs <;> refine ⟨?_, ?_, ?_, ?_⟩ <;> intro h <;> omega

/-- C1: for every calendar date, `ultimo_dia_habil` returns the preceding
Friday when the input is a Monday, Saturday or Sunday, and the previous
calendar day when the input is a Tuesday through Friday; `precedingFriday`
really is the closest earlier Friday, and the spec's two examples hold. -/
theorem C1_previous_business_day (d : Date) :
    (python_weekday (toDays d) = 0 ∨ 5 ≤ python_weekday (toDays d) →
      ultimo_dia_habil d = civil_from_days (precedingFriday (toDays d))) ∧
    (1 ≤ python_weekday (toDays d) ∧ python_weekday (toDays d) ≤ 4 →
      ultimo_dia_habil d = civil_from_days (toDays d - 1)) ∧
    python_weekday (precedingFriday (toDays d)) = 4 ∧
    precedingFriday (toDays d) < toDays d ∧
    toDays d - precedingFriday (toDays d) ≤ 7 ∧
    ultimo_dia_habil ⟨2024, 6, 10⟩ = ⟨2024, 6, 7⟩ ∧
    ultimo_dia_habil ⟨2024, 6, 12⟩ = ⟨2024, 6, 11⟩ := by
  obtain ⟨h0, h14, h5, h6⟩ := bday_m1 (toDays d)
  have hwlo : 0 ≤ python_weekday (toDays d) := by unfold python_weekday; omega
  have hwhi : python_weekday (toDays d) < 7 := by unfold python_weekday; omega
  refine ⟨?_, ?_, ?_, ?_, ?_, by decide, by decide⟩
  · intro h
    show civil_from_days (bday_apply (-1) (toDays d)) = _
    rcases h with h | h
    · rw [h0 h]
      unfold precedingFriday
      rw [h]
      norm_num
    · have : python_weekday (toDays d) = 5 ∨ python_weekday (toDays d) = 6 := by omega
      rcases this with h' | h'
      · rw [h5 h']
        unfold precedingFriday
        rw [h']
        norm_num
      · rw [h6 h']
        unfold precedingFriday
        rw [h']
        norm_num
  · intro h
    show civil_from_days (bday_apply (-1) (toDays d)) = _
    rw [h14 h]
  · unfold precedingFriday python_weekday at *
    omega
  · unfold precedingFriday python_weekday at *
    omega
  · unfold precedingFriday python_weekday at *
    omega

/-- C10: the business-day result is strictly earlier than the input, always
falls on a Monday through Friday (never a Saturday or Sunday), and a
Saturday and the following Sunday map to the same preceding Friday. -/
theorem C10_business_day_invariants (d : Date) :
    toDays (ultimo_dia_habil d) < toDays d ∧
    0 ≤ python_weekday (toDays (ultimo_dia_habil d)) ∧
    python_weekday (toDays (ultimo_dia_habil d)) ≤ 4 ∧
    (python_weekday (toDays d) = 5 →
      ultimo_dia_habil d = civil_from_days (precedingFriday (toDays d)) ∧
      ultimo_dia_habil (civil_from_days (toDays d + 1)) = ultimo_dia_habil d) := by
  obtain ⟨h0, h14, h5, h6⟩ := bday_m1 (toDays d)
  have hrt : toDays (ultimo_dia_habil d) = bday_apply (-1) (toDays d) := by
    unfold ultimo_dia_habil
    exact days_civil_inv _
  have hrt2 : toDays (civil_from_days (toDays d + 1)) = toDays d + 1 := days_civil_inv _
  have hwlo : 0 ≤ python_weekday (toDays d) := by unfold python_weekday; omega
  have hwhi : python_weekday (toDays d) < 7 := by unfold python_weekday; omega
  refine ⟨?_, ?_, ?_, ?_⟩
  · rw [hrt]
    unfold bday_apply python_weekday at *
    dsimp only
    split_ifs <;> omega
  · unfold python_weekday
    omega
  · rw [hrt]
    unfold bday_apply python_weekday at *
    dsimp only
    split_ifs <;> omega
  · intro h
    constructor
    · show civil_from_days (bday_apply (-1) (toDays d)) = _
      rw [h5 h]
      unfold precedingFriday
      rw [h]
      norm_num
    · show civil_from_days (bday_apply (-1) (toDays (civil_from_days (toDays d + 1)))) =
        civil_from_days (bday_apply (-1) (toDays d))
      rw [hrt2]
      obtain ⟨g0, g14, g5, g6⟩ := bday_m1 (toDays d + 1)
      have h6' : python_weekday (toDays d + 1) = 6 := by
        unfold python_weekday at *
        omega
      rw [g6 h6', h5 h]
      have harg : toDays d + 1 - 2 = toDays d - 1 := by omega
      rw [harg]

/-- Witness for C1 at the Monday 2024-06-10. -/
theorem C1_previous_business_day_witness :
    ultimo_dia_habil ⟨2024, 6, 10⟩ = civil_from_days (precedingFriday (toDays ⟨2024, 6, 10⟩)) :=
  (C1_previous_business_day ⟨2024, 6, 10⟩).1 (Or.inl (by decide))

/-- Witness for C10 at the Saturday 2024-06-15. -/
theorem C10_business_day_invariants_witness :
    ultimo_dia_habil ⟨2024, 6, 15⟩ = civil_from_days (precedingFriday (toDays ⟨2024, 6, 15⟩)) ∧
    ultimo_dia_habil (civil_from_days (toDays ⟨2024, 6, 15⟩ + 1)) = ultimo_dia_habil ⟨2024, 6, 15⟩ :=
  (C10_business_day_invariants ⟨2024, 6, 15⟩).2.2.2 (by decide)

/-- C7: on the empty record list the normalizer returns an empty frame with
no columns and raises no error. -/
theorem C7_empty_input : estandarizar [] = some ⟨[], [], []⟩ := rfl

/-- C8: on a successful statement response, `descargar_extractos` returns
the value stored under the response's `statements` key when the body is an
object, and the body itself when it is already a list. -/
theorem C8_statements_extraction (resp : HttpResponse) :
    (http_error resp.status = false →
      ∀ kvs v, resp.body = Json.obj kvs →
        kvs.find? (fun kv => kv.1 == "statements") = some v →
        descargar_extractos resp = Except.ok v.2) ∧
    (http_error resp.status = false →
      ∀ l, resp.body = Json.arr l → descargar_extractos resp = Except.ok (Json.arr l)) := by
  unfold descargar_extractos raise_for_status
  constructor
  · intro h kvs v hb hf
    rw [h, hb]
    simp [hf]
  · intro h l hb
    rw [h, hb]
    simp

/-- Witness for C8: an object body with a `statements` key, and a bare
list body, both with a 200 status. -/
theorem C8_statements_extraction_witness :
    descargar_extractos ⟨200, Json.obj [("statements", Json.arr [Json.num 1])]⟩ =
      Except.ok (Json.arr [Json.num 1]) ∧
    descargar_extractos ⟨200, Json.arr [Json.num 2]⟩ = Except.ok (Json.arr [Json.num 2]) :=
  ⟨(C8_statements_extraction ⟨200, Json.obj [("statements", Json.arr [Json.num 1])]⟩).1
      (by decide) _ ("statements", Json.arr [Json.num 1]) rfl rfl,
   (C8_statements_extraction ⟨200, Json.arr [Json.num 2]⟩).2 (by decide) _ rfl⟩

/-- C9: the token and statement calls return normally exactly when the HTTP
status is a success and, for the token, the `access_token` field is
present; any 4xx/5xx status (or, for the token, a missing field) raises
and propagates. -/
theorem C9_error_propagation (resp : HttpResponse) :
    exceptIsOk (obtener_token resp) = (!http_error resp.status && hasAccessToken resp.body) ∧
    exceptIsOk (descargar_extractos resp) = !http_error resp.status := by
  rcases resp with ⟨s, b⟩
  unfold obtener_token descargar_extractos raise_for_status exceptIsOk hasAccessToken
  by_cases h : http_error s = true
  · simp [h]
  · rw [Bool.not_eq_true] at h
    rw [h]
    cases b <;> simp
    rename_i kvs
    cases hf : kvs.find? (fun kv => kv.1 == "access_token") <;> simp [hf]

/-! ## List-level helper lemmas -/

theorem set_getD_self (r : List Val) (j : Nat) (d : Val) :
    r.set j (r.getD j d) = r := by
  induction r generalizing j with
  | nil => rfl
  | cons a as ih =>
    cases j with
    | zero => rfl
    | succ j' => simpa [List.set, List.getD] using ih j'

theorem getD_set_self (r : List Val) (j : Nat) (v d : Val) :
    (r.set j v).getD j d = if j < r.length then v else d := by
  induction r generalizing j with
  | nil => simp [List.set]
  | cons a as ih =>
    cases j with
    | zero => simp [List.set]
    | succ j' =>
      simp only [List.set, List.getD_cons_succ, List.length_cons]
      rw [ih j']
      simp [Nat.succ_lt_succ_iff]

theorem fechaLe_trans (a b c : Val) (h1 : fechaLe a b = true) (h2 : fechaLe b c = true) :
    fechaLe a c = true := by
  cases a <;> cases b <;> cases c <;> simp [fechaLe] at * <;> omega

theorem fechaLe_total (a b : Val) : fechaLe a b = true ∨ fechaLe b a = true := by
  cases a <;> cases b <;> simp [fechaLe] <;> omega

theorem leRowAt_trans (j : Nat) (a b c : List Val) (h1 : leRowAt j a b = true)
    (h2 : leRowAt j b c = true) : leRowAt j a c = true :=
  fechaLe_trans _ _ _ h1 h2

theorem leRowAt_total (j : Nat) (a b : List Val) :
    leRowAt j a b = true ∨ leRowAt j b a = true :=
  fechaLe_total _ _

theorem insertLe_perm (le : α → α → Bool) (x : α) (l : List α) :
    (insertLe le x l).Perm (x :: l) := by
  induction l with
  | nil => exact List.Perm.refl _
  | cons y ys ih =>
    unfold insertLe
    split
    · exact List.Perm.refl _
    · exact List.Perm.trans (ih.cons y) (List.Perm.swap x y ys)

theorem sortLe_perm (le : α → α → Bool) (l : List α) : (sortLe le l).Perm l := by
  induction l with
  | nil => exact List.Perm.refl _
  | cons x xs ih => exact List.Perm.trans (insertLe_perm le x (sortLe le xs)) (ih.cons x)

theorem insertLe_pairwise (le : α → α → Bool)
    (htrans : ∀ a b c, le a b = true → le b c = true → le a c = true)
    (htot : ∀ a b, le a b = true ∨ le b a = true)
    (x : α) (l : List α) (h : l.Pairwise (fun a b => le a b = true)) :
    (insertLe le x l).Pairwise (fun a b => le a b = true) := by
  induction l with
  | nil => simp [insertLe]
  | cons y ys ih =>
    rw [List.pairwise_cons] at h
    unfold insertLe
    split
    · rename_i hxy
      rw [List.pairwise_cons]
      refine ⟨?_, List.pairwise_cons.mpr h⟩
      intro b hb
      rcases List.mem_cons.mp hb with rfl | hb'
      · exact hxy
      · exact htrans x y b hxy (h.1 b hb')
    · rename_i hxy
      have hyx : le y x = true := by
        rcases htot x y with h' | h'
        · exact absurd h' hxy
        · exact h'
      rw [List.pairwise_cons]
      refine ⟨?_, ih h.2⟩
      intro b hb
      rcases List.mem_cons.mp ((insertLe_perm le x ys).mem_iff.mp hb) with rfl | h'
      · exact hyx
      · exact h.1 b h'

theorem sortLe_pairwise (le : α → α → Bool)
    (htrans : ∀ a b c, le a b = true → le b c = true → le a c = true)
    (htot : ∀ a b, le a b = true ∨ le b a = true)
    (l : List α) : (sortLe le l).Pairwise (fun a b => le a b = true) := by
  induction l with
  | nil => simp [sortLe]
  | cons x xs ih => exact insertLe_pairwise le htrans htot x (sortLe le xs) ih

theorem sortLe_of_pairwise (le : α → α → Bool) (l : List α)
    (h : l.Pairwise (fun a b => le a b = true)) : sortLe le l = l := by
  induction l with
  | nil => rfl
  | cons x xs ih =>
    rw [List.pairwise_cons] at h
    show insertLe le x (sortLe le xs) = x :: xs
    rw [ih h.2]
    cases xs with
    | nil => rfl
    | cons y ys =>
      unfold insertLe
      rw [if_pos (h.1 y (List.mem_cons_self y ys))]

/-! ### Keep-first deduplication -/

theorem dropDupAux_sublist (key : List Val → List Val) (l : List (Nat × List Val))
    (seen : List (List Val)) : (dropDupAux key l seen).Sublist l := by
  induction l generalizing seen with
  | nil => simp [dropDupAux]
  | cons p rest ih =>
    unfold dropDupAux
    split
    · exact (ih seen).cons p
    · exact (ih (key p.2 :: seen)).cons₂ p

theorem dropDupAux_nodup (key : List Val → List Val) (l : List (Nat × List Val))
    (seen : List (List Val)) :
    ((dropDupAux key l seen).map (fun p => key p.2)).Nodup ∧
    ∀ k ∈ (dropDupAux key l seen).map (fun p => key p.2), k ∉ seen := by
  induction l generalizing seen with
  | nil => simp [dropDupAux]
  | cons p rest ih =>
    unfold dropDupAux
    split
    · exact ih seen
    · rename_i hns
      obtain ⟨ih1, ih2⟩ := ih (key p.2 :: seen)
      simp only [List.map_cons, List.nodup_cons]
      refine ⟨⟨?_, ih1⟩, ?_⟩
      · intro hmem
        exact (ih2 _ hmem) (List.mem_cons_self _ _)
      · intro k hk
        rcases List.mem_cons.mp hk with rfl | hk'
        · exact hns
        · intro hkseen
          exact (ih2 k hk') (List.mem_cons_of_mem _ hkseen)

theorem dropDupAux_eq_self (key : List Val → List Val) (l : List (Nat × List Val))
    (seen : List (List Val)) (h1 : (l.map (fun p => key p.2)).Nodup)
    (h2 : ∀ p ∈ l, key p.2 ∉ seen) : dropDupAux key l seen = l := by
  induction l generalizing seen with
  | nil => rfl
  | cons p rest ih =>
    simp only [List.map_cons, List.nodup_cons] at h1
    unfold dropDupAux
    rw [if_neg (h2 p (List.mem_cons_self p rest))]
    congr 1
    refine ih (key p.2 :: seen) h1.2 ?_
    intro q hq hmem
    rcases List.mem_cons.mp hmem with heq | hmem'
    · exact h1.1 (heq ▸ List.mem_map_of_mem (fun p => key p.2) hq)
    · exact h2 q (List.mem_cons_of_mem p hq) hmem'

theorem dropDup_spec_aux (key : List Val → List Val) (pairs : List (Nat × List Val))
    (acc seen : List (List Val)) (hmem : ∀ k, k ∈ seen ↔ k ∈ acc.map key) :
    (pairs.map Prod.snd).foldl
        (fun acc r => if key r ∈ acc.map key then acc else acc ++ [r]) acc
      = acc ++ (dropDupAux key pairs seen).map Prod.snd := by
  induction pairs generalizing acc seen with
  | nil => simp [dropDupAux]
  | cons p rest ih =>
    simp only [List.map_cons, List.foldl_cons]
    unfold dropDupAux
    by_cases hs : key p.2 ∈ seen
    · rw [if_pos ((hmem _).mp hs), if_pos hs]
      exact ih acc seen hmem
    · rw [if_neg (fun hc => hs ((hmem _).mpr hc)), if_neg hs]
      rw [ih (acc ++ [p.2]) (key p.2 :: seen) ?_]
      · simp
      · intro k
        simp only [List.mem_cons, List.map_append, List.mem_append, List.map_cons,
          List.map_nil, List.mem_singleton]
        rw [hmem k]
        tauto

theorem dropDup_spec (key : List Val → List Val) (pairs : List (Nat × List Val)) :
    specDedupFirst key (pairs.map Prod.snd) = (dropDupAux key pairs []).map Prod.snd := by
  unfold specDedupFirst
  simpa using dropDup_spec_aux key pairs [] [] (by simp)

/-! ### Parsing the date column -/

theorem to_datetime1_shape (v w : Val) (h : to_datetime1 v = some w) : isDtNan w := by
  cases v with
  | nan => exact Or.inr (by simpa [to_datetime1] using h.symm)
  | dt n => exact Or.inl ⟨n, by simpa [to_datetime1] using h.symm⟩
  | num n => exact Or.inl ⟨n, by simpa [to_datetime1] using h.symm⟩
  | str s =>
    simp only [to_datetime1, Option.map_eq_some'] at h
    obtain ⟨d, _, hw⟩ := h
    exact Or.inl ⟨d * nsPerDay, hw.symm⟩

theorem to_datetime1_idem (w : Val) (h : isDtNan w) : to_datetime1 w = some w := by
  rcases h with ⟨n, rfl⟩ | rfl <;> rfl

theorem parseRows_some_length (j : Nat) (rows rs : List (List Val))
    (h : parseRows j rows = some rs) : rs.length = rows.length := by
  induction rows generalizing rs with
  | nil =>
    simp only [parseRows, Option.some_inj] at h
    subst h
    rfl
  | cons r rest ih =>
    simp only [parseRows, Option.bind_eq_some, Option.map_eq_some'] at h
    obtain ⟨v, _, rest', hrest, hrs⟩ := h
    subst hrs
    simp [ih rest' hrest]

theorem parseRows_some_mem (j : Nat) (rows rs : List (List Val))
    (h : parseRows j rows = some rs) :
    ∀ r' ∈ rs, isDtNan (r'.getD j Val.nan) ∧ ∃ r ∈ rows, r'.length = r.length := by
  induction rows generalizing rs with
  | nil =>
    simp only [parseRows, Option.some_inj] at h
    subst h
    intro r' hr'
    exact absurd hr' (List.not_mem_nil r')
  | cons r rest ih =>
    simp only [parseRows, Option.bind_eq_some, Option.map_eq_some'] at h
    obtain ⟨v, hv, rest', hrest, hrs⟩ := h
    subst hrs
    intro r' hr'
    rcases List.mem_cons.mp hr' with rfl | hmem
    · constructor
      · rw [getD_set_self]
        split
        · exact to_datetime1_shape _ _ hv
        · exact Or.inr rfl
      · exact ⟨r, List.mem_cons_self r rest, List.length_set r j v⟩
    · obtain ⟨h1, rr, hrr, hlen⟩ := ih rest' hrest r' hmem
      exact ⟨h1, rr, List.mem_cons_of_mem r hrr, hlen⟩

theorem parseRows_id (j : Nat) (rows : List (List Val))
    (h : ∀ r ∈ rows, isDtNan (r.getD j Val.nan)) : parseRows j rows = some rows := by
  induction rows with
  | nil => rfl
  | cons r rest ih =>
    simp only [parseRows]
    rw [to_datetime1_idem _ (h r (List.mem_cons_self r rest)),
      ih (fun q hq => h q (List.mem_cons_of_mem r hq))]
    have h' := set_getD_self r j Val.nan
    simp only [List.getD, List.get?_eq_getElem?] at h'
    simp [h']

/-! ## Pipeline stage lemmas -/

theorem zip_pairwise (l1 : List Nat) (l2 : List (List Val)) (R : List Val → List Val → Prop)
    (h : l2.Pairwise R) : (l1.zip l2).Pairwise (fun p q => R p.2 q.2) := by
  induction l1 generalizing l2 with
  | nil => simp
  | cons a as ih =>
    cases l2 with
    | nil => simp
    | cons b bs =>
      rw [List.pairwise_cons] at h
      rw [List.zip_cons_cons, List.pairwise_cons]
      refine ⟨?_, ih bs h.2⟩
      intro q hq
      rcases q with ⟨qi, qr⟩
      exact h.1 qr (List.of_mem_zip hq).2

theorem estandarizar_some_elim (movs : List Record) (df : DF)
    (hne : movs ≠ []) (h : estandarizar movs = some df) :
    ∃ df3 df4, sortStep (renameCols mapping (dateRename (json_normalize movs))) = some df3 ∧
      drop_duplicates df3 (keyColsOf df3.cols) = some df4 ∧ df = reset_index df4 := by
  unfold estandarizar at h
  rw [if_neg (by simpa [List.isEmpty_iff] using hne)] at h
  cases h3 : sortStep (renameCols mapping (dateRename (json_normalize movs))) with
  | none =>
    rw [h3] at h
    exact Option.noConfusion h
  | some df3 =>
    rw [h3] at h
    dsimp only at h
    cases h4 : drop_duplicates df3 (keyColsOf df3.cols) with
    | none =>
      rw [h4] at h
      exact Option.noConfusion h
    | some df4 =>
      rw [h4] at h
      dsimp only at h
      exact ⟨df3, df4, rfl, h4, (Option.some_inj.mp h).symm⟩

theorem sortStep_nofecha (df : DF) (hf : ("Fecha" : String) ∉ df.cols) :
    sortStep df = some df := by
  unfold sortStep
  rw [if_neg hf]

theorem sortStep_fecha_elim (df df' : DF) (hf : ("Fecha" : String) ∈ df.cols)
    (h : sortStep df = some df') :
    ¬ 2 ≤ df.cols.count ("Fecha") ∧
    ∃ rs, parseRows (fechaIdx df.cols) df.rows = some rs ∧
      df' = ⟨df.cols,
        (sortLe (fun a b => leRowAt (fechaIdx df.cols) a.2 b.2) (df.index.zip rs)).map Prod.fst,
        (sortLe (fun a b => leRowAt (fechaIdx df.cols) a.2 b.2) (df.index.zip rs)).map Prod.snd⟩ := by
  unfold sortStep at h
  rw [if_pos hf] at h
  split at h
  · exact Option.noConfusion h
  · rename_i hcnt
    dsimp only at h
    cases hp : parseRows (fechaIdx df.cols) df.rows with
    | none =>
      rw [hp] at h
      exact Option.noConfusion h
    | some rs =>
      rw [hp] at h
      dsimp only at h
      exact ⟨hcnt, rs, rfl, (Option.some_inj.mp h).symm⟩

theorem sortStep_some_cols (df df' : DF) (h : sortStep df = some df') : df'.cols = df.cols := by
  by_cases hf : ("Fecha" : String) ∈ df.cols
  · obtain ⟨-, rs, -, hdf'⟩ := sortStep_fecha_elim df df' hf h
    rw [hdf']
  · rw [sortStep_nofecha df hf] at h
    rw [← Option.some_inj.mp h]

theorem sortStep_id (df : DF) (hf : ("Fecha" : String) ∈ df.cols)
    (hcnt : ¬ 2 ≤ df.cols.count ("Fecha"))
    (hlen : df.index.length = df.rows.length)
    (hcells : ∀ r ∈ df.rows, isDtNan (r.getD (fechaIdx df.cols) Val.nan))
    (hsorted : df.rows.Pairwise (fun r s => leRowAt (fechaIdx df.cols) r s = true)) :
    sortStep df = some df := by
  unfold sortStep
  rw [if_pos hf, if_neg hcnt]
  dsimp only
  rw [parseRows_id _ _ hcells]
  dsimp only
  rw [sortLe_of_pairwise _ _ (zip_pairwise df.index df.rows _ hsorted)]
  rw [List.map_fst_zip _ _ (le_of_eq hlen), List.map_snd_zip _ _ (le_of_eq hlen.symm)]

theorem drop_duplicates_some_cols (df : DF) (subset : List String) (df' : DF)
    (h : drop_duplicates df subset = some df') : df'.cols = df.cols := by
  unfold drop_duplicates at h
  split at h
  · rw [← Option.some_inj.mp h]
  · split at h
    · exact Option.noConfusion h
    · split at h
      · exact Option.noConfusion h
      · dsimp only at h
        rw [← Option.some_inj.mp h]

theorem drop_duplicates_some_elim (df : DF) (subset : List String) (df' : DF)
    (hrows : ¬ df.rows.isEmpty = true) (h : drop_duplicates df subset = some df') :
    ¬ df.cols.isEmpty = true ∧ ¬ subset.isEmpty = true ∧
      df' = ⟨df.cols,
        (dropDupAux (rowKey df.cols subset) (df.index.zip df.rows) []).map Prod.fst,
        (dropDupAux (rowKey df.cols subset) (df.index.zip df.rows) []).map Prod.snd⟩ := by
  unfold drop_duplicates at h
  rw [if_neg hrows] at h
  split at h
  · exact Option.noConfusion h
  · rename_i hcols
    split at h
    · exact Option.noConfusion h
    · rename_i hsub
      dsimp only at h
      exact ⟨hcols, hsub, (Option.some_inj.mp h).symm⟩

theorem drop_duplicates_id (df : DF) (subset : List String)
    (hcols : ¬ df.cols.isEmpty = true) (hsub : ¬ subset.isEmpty = true)
    (hlen : df.index.length = df.rows.length)
    (hkeys : (df.rows.map (rowKey df.cols subset)).Nodup) :
    drop_duplicates df subset = some df := by
  unfold drop_duplicates
  by_cases hrows : df.rows.isEmpty = true
  · rw [if_pos hrows]
  · rw [if_neg hrows, if_neg hcols, if_neg hsub]
    dsimp only
    have hmap : (df.index.zip df.rows).map (fun p => rowKey df.cols subset p.2)
        = df.rows.map (rowKey df.cols subset) := by
      rw [show (fun p : Nat × List Val => rowKey df.cols subset p.2)
        = (rowKey df.cols subset) ∘ Prod.snd from rfl, ← List.map_map,
        List.map_snd_zip _ _ (le_of_eq hlen.symm)]
    rw [dropDupAux_eq_self _ _ _ (by rw [hmap]; exact hkeys) (by simp),
      List.map_fst_zip _ _ (le_of_eq hlen), List.map_snd_zip _ _ (le_of_eq hlen.symm)]

/-! ## Column collection and rename facts -/

theorem insertCol_mem (acc : List String) (c x : String) :
    x ∈ insertCol acc c ↔ x ∈ acc ∨ x = c := by
  unfold insertCol
  split
  · rename_i h
    constructor
    · exact Or.inl
    · rintro (h' | rfl)
      · exact h'
      · exact h
  · simp [List.mem_append]

theorem insertCol_nodup (acc : List String) (c : String) (h : acc.Nodup) :
    (insertCol acc c).Nodup := by
  unfold insertCol
  split
  · exact h
  · rename_i hne
    rw [List.nodup_append]
    exact ⟨h, List.nodup_singleton c, fun x hx hmem => hne ((List.mem_singleton.mp hmem) ▸ hx)⟩

theorem recFold_nodup (r : Record) (acc : List String) (h : acc.Nodup) :
    (r.foldl (fun a kv => insertCol a kv.1) acc).Nodup := by
  induction r generalizing acc with
  | nil => exact h
  | cons kv rest ih => exact ih (insertCol acc kv.1) (insertCol_nodup acc kv.1 h)

theorem recFold_mem (r : Record) (acc : List String) (x : String) :
    x ∈ r.foldl (fun a kv => insertCol a kv.1) acc ↔ x ∈ acc ∨ x ∈ r.map Prod.fst := by
  induction r generalizing acc with
  | nil => simp
  | cons kv rest ih =>
    simp only [List.foldl_cons, List.map_cons, List.mem_cons]
    rw [ih (insertCol acc kv.1), insertCol_mem]
    tauto

theorem collectCols_nodup (movs : List Record) : (collectCols movs).Nodup := by
  unfold collectCols
  suffices h : ∀ (acc : List String), acc.Nodup →
      (movs.foldl (fun acc r => r.foldl (fun a kv => insertCol a kv.1) acc) acc).Nodup from
    h [] List.nodup_nil
  induction movs with
  | nil => exact fun acc h => h
  | cons r rest ih => exact fun acc h => ih (r.foldl _ acc) (recFold_nodup r acc h)

theorem mem_collectCols (movs : List Record) (x : String) :
    x ∈ collectCols movs ↔ ∃ r ∈ movs, x ∈ r.map Prod.fst := by
  unfold collectCols
  suffices h : ∀ (acc : List String),
      (x ∈ movs.foldl (fun acc r => r.foldl (fun a kv => insertCol a kv.1) acc) acc ↔
        x ∈ acc ∨ ∃ r ∈ movs, x ∈ r.map Prod.fst) by
    rw [h []]
    simp
  induction movs with
  | nil => simp
  | cons r rest ih =>
    intro acc
    simp only [List.foldl_cons]
    rw [ih (r.foldl _ acc), recFold_mem]
    simp only [List.mem_cons]
    constructor
    · rintro ((h' | h') | ⟨q, hq, hx⟩)
      · exact Or.inl h'
      · exact Or.inr ⟨r, Or.inl rfl, h'⟩
      · exact Or.inr ⟨q, Or.inr hq, hx⟩
    · rintro (h' | ⟨q, rfl | hq, hx⟩)
      · exact Or.inl (Or.inl h')
      · exact Or.inl (Or.inr hx)
      · exact Or.inr ⟨q, hq, hx⟩

theorem applyRen_single (c x : String) (v : String) :
    applyRen [(c, v)] x = if c = x then v else x := by
  unfold applyRen
  by_cases h : c = x
  · subst h
    simp [List.find?]
  · simp only [List.find?]
    rw [show (c == x) = false from beq_eq_false_iff_ne.mpr h]
    simp [h]

theorem applyRen_not_key (m : List (String × String)) (x : String)
    (h : m.find? (fun kv => kv.1 == x) = none) : applyRen m x = x := by
  unfold applyRen
  rw [h]
  rfl

theorem find?_mapping_cases (x : String) :
    mapping.find? (fun kv => kv.1 == x) = none ∨ x ∈ mapping.map Prod.fst := by
  cases h : mapping.find? (fun kv => kv.1 == x) with
  | none => exact Or.inl rfl
  | some kv =>
    right
    have h1 := List.find?_some h
    have h2 := List.mem_of_find?_eq_some h
    rw [beq_iff_eq] at h1
    exact h1 ▸ List.mem_map_of_mem Prod.fst h2

theorem applyRen_mapping_of_not_mem (x : String) (h : x ∉ mapping.map Prod.fst) :
    applyRen mapping x = x := by
  rcases find?_mapping_cases x with h' | h'
  · exact applyRen_not_key mapping x h'
  · exact absurd h' h

theorem applyRen_mapping_vals (x : String) :
    applyRen mapping x = x ∨
      applyRen mapping x ∈ (["Concepto", "Debito", "Credito", "Saldo", "Banco"] : List String) := by
  unfold applyRen
  cases h : mapping.find? (fun kv => kv.1 == x) with
  | none => exact Or.inl rfl
  | some kv =>
    right
    have h2 := List.mem_of_find?_eq_some h
    simp only [mapping, List.mem_cons, List.not_mem_nil, or_false] at h2
    rcases h2 with rfl | rfl | rfl | rfl | rfl <;> simp

theorem applyRen_mapping_eq_fecha (x : String) (h : applyRen mapping x = "Fecha") :
    x = "Fecha" := by
  rcases applyRen_mapping_vals x with h' | h'
  · rw [← h', h]
  · rw [h] at h'
    simp at h'

theorem applyRen_mapping_not_key (x : String) :
    mapping.find? (fun kv => kv.1 == applyRen mapping x) = none := by
  unfold applyRen
  cases h : mapping.find? (fun kv => kv.1 == x) with
  | none =>
    simp only [Option.map_none', Option.getD_none]
    exact h
  | some kv =>
    have h2 := List.mem_of_find?_eq_some h
    simp only [mapping, List.mem_cons, List.not_mem_nil, or_false] at h2
    rcases h2 with rfl | rfl | rfl | rfl | rfl <;> rfl

theorem containsDate_not_mapkey (x : String) (h : containsDate x = true) :
    mapping.find? (fun kv => kv.1 == x) = none := by
  cases hf : mapping.find? (fun kv => kv.1 == x) with
  | none => rfl
  | some kv =>
    exfalso
    have h1 := List.find?_some hf
    have h2 := List.mem_of_find?_eq_some hf
    rw [beq_iff_eq] at h1
    simp only [mapping, List.mem_cons, List.not_mem_nil, or_false] at h2
    rcases h2 with rfl | rfl | rfl | rfl | rfl <;> rw [← h1] at h <;> exact absurd h (by decide)

theorem applyRen_mapping_of_date (x : String) (h : containsDate x = true) :
    applyRen mapping x = x :=
  applyRen_not_key mapping x (containsDate_not_mapkey x h)

theorem applyRen_mapping_fecha : applyRen mapping ("Fecha") = "Fecha" := rfl

/-! ## Well-formedness through the pipeline -/

theorem json_normalize_wf (movs : List Record) : WF (json_normalize movs) := by
  unfold WF json_normalize
  constructor
  · simp
  · intro r hr
    dsimp only at hr
    obtain ⟨q, _, rfl⟩ := List.mem_map.mp hr
    simp

theorem renameCols_wf (m : List (String × String)) (df : DF) (h : WF df) :
    WF (renameCols m df) := by
  obtain ⟨h1, h2⟩ := h
  refine ⟨h1, ?_⟩
  intro r hr
  simp only [renameCols, List.length_map]
  exact h2 r hr

theorem dateRename_rows (df : DF) : (dateRename df).rows = df.rows := by
  unfold dateRename
  split <;> rfl

theorem dateRename_index (df : DF) : (dateRename df).index = df.index := by
  unfold dateRename
  split <;> rfl

theorem dateRename_wf (df : DF) (h : WF df) : WF (dateRename df) := by
  unfold dateRename
  split
  · exact h
  · exact renameCols_wf _ df h

theorem sortLe_length (le : α → α → Bool) (l : List α) : (sortLe le l).length = l.length :=
  (sortLe_perm le l).length_eq

theorem sortStep_wf (df df' : DF) (h : sortStep df = some df') (hwf : WF df) : WF df' := by
  obtain ⟨h1, h2⟩ := hwf
  by_cases hf : ("Fecha" : String) ∈ df.cols
  · obtain ⟨-, rs, hrs, hdf'⟩ := sortStep_fecha_elim df df' hf h
    subst hdf'
    refine ⟨by simp, ?_⟩
    intro r hr
    simp only [List.mem_map] at hr
    obtain ⟨p, hp, rfl⟩ := hr
    have hp' : p ∈ df.index.zip rs := (sortLe_perm _ _).mem_iff.mp hp
    have hsnd : p.2 ∈ rs := (List.of_mem_zip hp').2
    obtain ⟨-, q, hq, hlen⟩ := parseRows_some_mem _ _ _ hrs p.2 hsnd
    exact hlen.trans (h2 q hq)
  · rw [sortStep_nofecha df hf] at h
    rw [← Option.some_inj.mp h]
    exact ⟨h1, h2⟩

theorem sortStep_rows_length (df df' : DF) (h : sortStep df = some df') (hwf : WF df) :
    df'.rows.length = df.rows.length := by
  by_cases hf : ("Fecha" : String) ∈ df.cols
  · obtain ⟨-, rs, hrs, hdf'⟩ := sortStep_fecha_elim df df' hf h
    subst hdf'
    simp only [List.length_map, sortLe_length, List.length_zip]
    rw [parseRows_some_length _ _ _ hrs, hwf.1]
    exact Nat.min_self _
  · rw [sortStep_nofecha df hf] at h
    rw [← Option.some_inj.mp h]

theorem drop_duplicates_wf (df : DF) (subset : List String) (df' : DF)
    (h : drop_duplicates df subset = some df') (hwf : WF df) : WF df' := by
  by_cases hrows : df.rows.isEmpty = true
  · unfold drop_duplicates at h
    rw [if_pos hrows] at h
    rw [← Option.some_inj.mp h]
    exact hwf
  · obtain ⟨-, -, hdf'⟩ := drop_duplicates_some_elim df subset df' hrows h
    subst hdf'
    refine ⟨by simp, ?_⟩
    intro r hr
    simp only [List.mem_map] at hr
    obtain ⟨p, hp, rfl⟩ := hr
    have hp' : p ∈ df.index.zip df.rows := (dropDupAux_sublist _ _ _).mem hp
    exact hwf.2 p.2 (List.of_mem_zip hp').2

theorem reset_index_wf (df : DF) (h : WF df) : WF (reset_index df) :=
  ⟨by simp [reset_index], h.2⟩

/-! ## Facts about the whole normalizer -/

theorem estandarizar_nil (df : DF) (h : estandarizar [] = some df) :
    df = ⟨[], [], []⟩ := by
  have h' : estandarizar [] = some ⟨[], [], []⟩ := rfl
  rw [h'] at h
  exact (Option.some_inj.mp h).symm

theorem estandarizar_index (movs : List Record) (df : DF) (h : estandarizar movs = some df) :
    df.index = List.range df.rows.length := by
  rcases movs with _ | ⟨m, ms⟩
  · rw [estandarizar_nil df h]
    rfl
  · obtain ⟨df3, df4, -, -, hdf⟩ :=
      estandarizar_some_elim (m :: ms) df (by simp) h
    subst hdf
    rfl

theorem estandarizar_cols (movs : List Record) (df : DF) (hne : movs ≠ [])
    (h : estandarizar movs = some df) :
    df.cols = (renameCols mapping (dateRename (json_normalize movs))).cols := by
  obtain ⟨df3, df4, h3, h4, hdf⟩ := estandarizar_some_elim movs df hne h
  subst hdf
  show df4.cols = _
  rw [drop_duplicates_some_cols df3 _ df4 h4, sortStep_some_cols _ df3 h3]

theorem estandarizar_wf (movs : List Record) (df : DF) (h : estandarizar movs = some df) :
    WF df := by
  rcases movs with _ | ⟨m, ms⟩
  · rw [estandarizar_nil df h]
    exact ⟨rfl, by simp⟩
  · obtain ⟨df3, df4, h3, h4, hdf⟩ :=
      estandarizar_some_elim (m :: ms) df (by simp) h
    subst hdf
    refine reset_index_wf df4 (drop_duplicates_wf df3 _ df4 h4 (sortStep_wf _ df3 h3 ?_))
    exact renameCols_wf _ _ (dateRename_wf _ (json_normalize_wf (m :: ms)))


theorem json_normalize_cols (movs : List Record) :
    (json_normalize movs).cols = collectCols movs := rfl

theorem json_normalize_rows_length (movs : List Record) :
    (json_normalize movs).rows.length = movs.length := by
  simp [json_normalize]

theorem stage_rows (movs : List Record) :
    (renameCols mapping (dateRename (json_normalize movs))).rows
      = (json_normalize movs).rows := by
  show (dateRename (json_normalize movs)).rows = _
  exact dateRename_rows _

theorem stage_index (movs : List Record) :
    (renameCols mapping (dateRename (json_normalize movs))).index
      = (json_normalize movs).index := by
  show (dateRename (json_normalize movs)).index = _
  exact dateRename_index _

theorem filter_eq_nil_of (l : List String) (p : String → Bool) (h : ∀ c ∈ l, p c = false) :
    l.filter p = [] := by
  induction l with
  | nil => rfl
  | cons a as ih =>
    rw [List.filter_cons, h a (List.mem_cons_self a as)]
    simp only [Bool.false_eq_true, if_false]
    exact ih (fun c hc => h c (List.mem_cons_of_mem a hc))

theorem dateRename_eq_self (df : DF) (h : df.cols.filter containsDate = []) :
    dateRename df = df := by
  unfold dateRename
  rw [h]

/-- C3: deduplication keeps, in order, the first occurrence of every
combination of the key columns (the present subset of Fecha, Concepto,
Debito, Credito, Saldo), so no two output rows share a key, and the output
is reindexed contiguously from zero. -/
theorem C3_dedup_unique (movs : List Record) (df : DF) (h : estandarizar movs = some df) :
    df.index = List.range df.rows.length ∧
    (df.rows.map (rowKey df.cols (keyColsOf df.cols))).Nodup ∧
    ∃ pre, sortStep (renameCols mapping (dateRename (json_normalize movs))) = some pre ∧
      pre.cols = df.cols ∧
      df.rows = specDedupFirst (rowKey df.cols (keyColsOf df.cols)) pre.rows := by
  rcases movs with _ | ⟨m, ms⟩
  · have hdf := estandarizar_nil df h
    subst hdf
    exact ⟨rfl, by simp [specDedupFirst], ⟨⟨[], [], []⟩, by decide, rfl, rfl⟩⟩
  · obtain ⟨df3, df4, h3, h4, hdf⟩ := estandarizar_some_elim _ df (by simp) h
    have hwf2 : WF (renameCols mapping (dateRename (json_normalize (m :: ms)))) :=
      renameCols_wf _ _ (dateRename_wf _ (json_normalize_wf _))
    have hwf3 : WF df3 := sortStep_wf _ _ h3 hwf2
    have hlen3 : df3.rows.length = (m :: ms).length := by
      rw [sortStep_rows_length _ _ h3 hwf2, stage_rows, json_normalize_rows_length]
    have hrows3 : ¬ df3.rows.isEmpty = true := by
      rw [List.isEmpty_iff]
      intro hnil
      rw [hnil] at hlen3
      exact absurd hlen3.symm (by simp)
    obtain ⟨hcols3, hsub3, hdf4⟩ := drop_duplicates_some_elim df3 _ df4 hrows3 h4
    have hcols : df.cols = df3.cols := by
      rw [hdf]
      show df4.cols = df3.cols
      rw [hdf4]
    have hrows : df.rows =
        (dropDupAux (rowKey df3.cols (keyColsOf df3.cols)) (df3.index.zip df3.rows) []).map
          Prod.snd := by
      rw [hdf]
      show df4.rows = _
      rw [hdf4]
    refine ⟨estandarizar_index _ _ h, ?_, df3, h3, hcols.symm, ?_⟩
    · rw [hrows, hcols, List.map_map]
      have := (dropDupAux_nodup (rowKey df3.cols (keyColsOf df3.cols))
        (df3.index.zip df3.rows) []).1
      convert this using 2
    · rw [hrows, hcols]
      rw [← dropDup_spec (rowKey df3.cols (keyColsOf df3.cols)) (df3.index.zip df3.rows)]
      rw [List.map_snd_zip _ _ (le_of_eq hwf3.1.symm)]

/-- Witness for C3: two records agreeing on all key columns and differing
in an extra column produce exactly one row, the first one, reindexed. -/
theorem C3_dedup_unique_witness :
    (⟨["Fecha", "Concepto", "extra"], [0],
        [[Val.dt 1717718400000000000, Val.str "X", Val.num 1]]⟩ : DF).index =
      List.range
        (⟨["Fecha", "Concepto", "extra"], [0],
          [[Val.dt 1717718400000000000, Val.str "X", Val.num 1]]⟩ : DF).rows.length ∧
    ((⟨["Fecha", "Concepto", "extra"], [0],
        [[Val.dt 1717718400000000000, Val.str "X", Val.num 1]]⟩ : DF).rows.map
      (rowKey ["Fecha", "Concepto", "extra"] (keyColsOf ["Fecha", "Concepto", "extra"]))).Nodup ∧
    ∃ pre, sortStep (renameCols mapping (dateRename (json_normalize
        [[("valueDate", Val.str "2024-06-07"), ("description", Val.str "X"),
            ("extra", Val.num 1)],
          [("valueDate", Val.str "2024-06-07"), ("description", Val.str "X"),
            ("extra", Val.num 2)]]))) = some pre ∧
      pre.cols = ["Fecha", "Concepto", "extra"] ∧
      (⟨["Fecha", "Concepto", "extra"], [0],
        [[Val.dt 1717718400000000000, Val.str "X", Val.num 1]]⟩ : DF).rows =
        specDedupFirst (rowKey ["Fecha", "Concepto", "extra"]
          (keyColsOf ["Fecha", "Concepto", "extra"])) pre.rows :=
  C3_dedup_unique
    [[("valueDate", Val.str "2024-06-07"), ("description", Val.str "X"), ("extra", Val.num 1)],
     [("valueDate", Val.str "2024-06-07"), ("description", Val.str "X"), ("extra", Val.num 2)]]
    ⟨["Fecha", "Concepto", "extra"], [0],
      [[Val.dt 1717718400000000000, Val.str "X", Val.num 1]]⟩ (by decide)

/-- C4: whenever a `Fecha` column exists after renaming, the output rows
are non-decreasing in it; when none exists, the rows keep the flattened
input order with no date parsing (they are a subsequence of the
`json_normalize` rows). -/
theorem C4_sorted_by_fecha (movs : List Record) (df : DF) (h : estandarizar movs = some df) :
    (("Fecha" : String) ∈ df.cols →
      df.rows.Pairwise (fun r s => leRowAt (fechaIdx df.cols) r s = true)) ∧
    (("Fecha" : String) ∉ df.cols → df.rows.Sublist (json_normalize movs).rows) := by
  rcases movs with _ | ⟨m, ms⟩
  · have hdf := estandarizar_nil df h
    subst hdf
    constructor
    · intro hf
      exact List.Pairwise.nil
    · intro hf
      exact List.nil_sublist _
  · obtain ⟨df3, df4, h3, h4, hdf⟩ := estandarizar_some_elim _ df (by simp) h
    have hwf2 : WF (renameCols mapping (dateRename (json_normalize (m :: ms)))) :=
      renameCols_wf _ _ (dateRename_wf _ (json_normalize_wf _))
    have hwf3 : WF df3 := sortStep_wf _ _ h3 hwf2
    have hlen3 : df3.rows.length = (m :: ms).length := by
      rw [sortStep_rows_length _ _ h3 hwf2, stage_rows, json_normalize_rows_length]
    have hrows3 : ¬ df3.rows.isEmpty = true := by
      rw [List.isEmpty_iff]
      intro hnil
      rw [hnil] at hlen3
      exact absurd hlen3.symm (by simp)
    obtain ⟨-, -, hdf4⟩ := drop_duplicates_some_elim df3 _ df4 hrows3 h4
    have hcols23 : df3.cols = (renameCols mapping (dateRename (json_normalize (m :: ms)))).cols :=
      sortStep_some_cols _ df3 h3
    have hcols : df.cols = df3.cols := by
      rw [hdf]
      show df4.cols = df3.cols
      rw [hdf4]
    have hrows : df.rows =
        (dropDupAux (rowKey df3.cols (keyColsOf df3.cols)) (df3.index.zip df3.rows) []).map
          Prod.snd := by
      rw [hdf]
      show df4.rows = _
      rw [hdf4]
    have hsubrows : df.rows.Sublist df3.rows := by
      rw [hrows]
      have h1 := (dropDupAux_sublist (rowKey df3.cols (keyColsOf df3.cols))
        (df3.index.zip df3.rows) []).map Prod.snd
      rw [List.map_snd_zip _ _ (le_of_eq hwf3.1.symm)] at h1
      exact h1
    constructor
    · intro hf
      have hf3 : ("Fecha" : String) ∈
          (renameCols mapping (dateRename (json_normalize (m :: ms)))).cols := by
        rw [← hcols23, ← hcols]
        exact hf
      obtain ⟨-, rs, hrs, hdf3⟩ := sortStep_fecha_elim _ df3 hf3 h3
      have hsorted3 : df3.rows.Pairwise
          (fun r s => leRowAt (fechaIdx
            (renameCols mapping (dateRename (json_normalize (m :: ms)))).cols) r s = true) := by
        rw [hdf3]
        show (List.map Prod.snd _).Pairwise _
        rw [List.pairwise_map]
        exact sortLe_pairwise
          (fun (a b : Nat × List Val) => leRowAt (fechaIdx
            (renameCols mapping (dateRename (json_normalize (m :: ms)))).cols) a.2 b.2)
          (fun (a b c : Nat × List Val) hab hbc => leRowAt_trans _ a.2 b.2 c.2 hab hbc)
          (fun (a b : Nat × List Val) => leRowAt_total _ a.2 b.2) _
      rw [hcols, hcols23]
      exact hsorted3.sublist hsubrows
    · intro hf
      have hf2 : ("Fecha" : String) ∉
          (renameCols mapping (dateRename (json_normalize (m :: ms)))).cols := by
        rw [← hcols23, ← hcols]
        exact hf
      have h33 : df3 = renameCols mapping (dateRename (json_normalize (m :: ms))) := by
        have := sortStep_nofecha _ hf2
        rw [this] at h3
        exact (Option.some_inj.mp h3).symm
      have := hsubrows
      rw [h33, stage_rows] at this
      exact this

/-- Witness for C4: two records with out-of-order dates come out sorted by
the parsed `Fecha` column. -/
theorem C4_sorted_by_fecha_witness :
    (⟨["Fecha", "Concepto"], [0, 1],
        [[Val.dt 1717718400000000000, Val.str "A"],
         [Val.dt 1717804800000000000, Val.str "B"]]⟩ : DF).rows.Pairwise
      (fun r s => leRowAt (fechaIdx ["Fecha", "Concepto"]) r s = true) :=
  (C4_sorted_by_fecha
    [[("valueDate", Val.str "2024-06-08"), ("description", Val.str "B")],
     [("valueDate", Val.str "2024-06-07"), ("description", Val.str "A")]]
    ⟨["Fecha", "Concepto"], [0, 1],
      [[Val.dt 1717718400000000000, Val.str "A"],
       [Val.dt 1717804800000000000, Val.str "B"]]⟩ (by decide)).1 (by decide)

/-- C6: exactly the first column (in column order) whose name contains
"date" case-insensitively is renamed to `Fecha`; later date-like columns
keep their names, and when no such column exists the pipeline introduces
no `Fecha` column. -/
theorem C6_first_date_column (movs : List Record) (df : DF)
    (h : estandarizar movs = some df) :
    ((collectCols movs).filter containsDate = [] →
      df.cols = (collectCols movs).map (applyRen mapping) ∧
      (("Fecha" : String) ∉ collectCols movs → ("Fecha" : String) ∉ df.cols)) ∧
    (∀ c rest, (collectCols movs).filter containsDate = c :: rest →
      df.cols = (collectCols movs).map
        (fun x => if c = x then ("Fecha" : String) else applyRen mapping x) ∧
      ∀ x ∈ rest, x ∈ df.cols) := by
  rcases movs with _ | ⟨m, ms⟩
  · have hdf := estandarizar_nil df h
    subst hdf
    constructor
    · intro hfil
      exact ⟨rfl, fun hmem => by simp⟩
    · intro c rest hfil
      exact absurd hfil (by simp [collectCols])
  · have hcolseq := estandarizar_cols (m :: ms) df (by simp) h
    constructor
    · intro hfil
      have hdr : dateRename (json_normalize (m :: ms)) = json_normalize (m :: ms) :=
        dateRename_eq_self _ (by rw [json_normalize_cols]; exact hfil)
      rw [hdr] at hcolseq
      refine ⟨hcolseq, ?_⟩
      intro hmem hcon
      rw [hcolseq] at hcon
      obtain ⟨x, hx, hfx⟩ := List.mem_map.mp hcon
      exact hmem (applyRen_mapping_eq_fecha x hfx ▸ hx)
    · intro c rest hfil
      have hdr : dateRename (json_normalize (m :: ms)) =
          renameCols [(c, "Fecha")] (json_normalize (m :: ms)) := by
        unfold dateRename
        rw [json_normalize_cols, hfil]
      rw [hdr] at hcolseq
      have hcols' : df.cols = (collectCols (m :: ms)).map
          (fun x => applyRen mapping (applyRen [(c, ("Fecha" : String))] x)) := by
        rw [hcolseq]
        show ((json_normalize (m :: ms)).cols.map (applyRen [(c, "Fecha")])).map
          (applyRen mapping) = _
        rw [List.map_map, json_normalize_cols]
        rfl
      constructor
      · rw [hcols']
        refine List.map_congr_left ?_
        intro x hx
        rw [applyRen_single]
        by_cases hxc : c = x
        · rw [if_pos hxc, if_pos hxc]
          rfl
        · rw [if_neg hxc, if_neg hxc]
      · intro x hx
        have hxfil : x ∈ (collectCols (m :: ms)).filter containsDate := by
          rw [hfil]
          exact List.mem_cons_of_mem c hx
        have hxcc : x ∈ collectCols (m :: ms) := List.mem_of_mem_filter hxfil
        have hxdate : containsDate x = true := List.of_mem_filter hxfil
        have hnodupfil : ((collectCols (m :: ms)).filter containsDate).Nodup :=
          (collectCols_nodup (m :: ms)).filter containsDate
        have hxc : c ≠ x := by
          rw [hfil] at hnodupfil
          rw [List.nodup_cons] at hnodupfil
          intro hcx
          exact hnodupfil.1 (hcx ▸ hx)
        rw [hcols']
        refine List.mem_map.mpr ⟨x, hxcc, ?_⟩
        rw [applyRen_single, if_neg hxc, applyRen_mapping_of_date x hxdate]

/-- Witness for C6: with two date-like fields, only the first becomes
`Fecha` and the second keeps its name. -/
theorem C6_first_date_column_witness :
    (⟨["Fecha", "dueDate"], [0],
        [[Val.dt 1717718400000000000, Val.str "2024-06-08"]]⟩ : DF).cols =
      (collectCols [[("valueDate", Val.str "2024-06-07"),
        ("dueDate", Val.str "2024-06-08")]]).map
        (fun x => if ("valueDate" : String) = x then ("Fecha" : String)
          else applyRen mapping x) ∧
    ∀ x ∈ (["dueDate"] : List String),
      x ∈ (⟨["Fecha", "dueDate"], [0],
        [[Val.dt 1717718400000000000, Val.str "2024-06-08"]]⟩ : DF).cols :=
  (C6_first_date_column [[("valueDate", Val.str "2024-06-07"),
      ("dueDate", Val.str "2024-06-08")]]
    ⟨["Fecha", "dueDate"], [0], [[Val.dt 1717718400000000000, Val.str "2024-06-08"]]⟩
    (by decide)).2 "valueDate" ["dueDate"] (by decide)

/-- C5 counterexample: a single record whose only field name is outside the
known mapping and not date-like leaves the dedup subset empty, and the
normalizer raises (pandas `drop_duplicates` with an empty subset) instead
of passing the column through. -/
theorem C5_counterexample : estandarizar [[("foo", Val.str "a")]] = none := by decide

/-- C5 (amended): if the records' field names are outside the known
mapping, none is date-like and none is literally `Fecha`, and at least one
canonical key column is present, then the normalizer succeeds, passes all
columns through unrenamed, keeps the flattened rows in order except for
key-duplicates, and loses nothing when the key tuples are distinct. -/
theorem C5_unknown_passthrough (movs : List Record) (hne : movs ≠ [])
    (hdate : ∀ c ∈ collectCols movs, containsDate c = false)
    (hfecha : ("Fecha" : String) ∉ collectCols movs)
    (hmap : ∀ c ∈ collectCols movs, mapping.find? (fun kv => kv.1 == c) = none)
    (hkey : ∃ c ∈ collectCols movs,
      c ∈ (["Concepto", "Debito", "Credito", "Saldo"] : List String)) :
    ∃ df, estandarizar movs = some df ∧
      df.cols = collectCols movs ∧
      df.rows = specDedupFirst (rowKey (collectCols movs) (keyColsOf (collectCols movs)))
        (json_normalize movs).rows ∧
      df.rows.Sublist (json_normalize movs).rows ∧
      (((json_normalize movs).rows.map
          (rowKey (collectCols movs) (keyColsOf (collectCols movs)))).Nodup →
        df.rows = (json_normalize movs).rows) := by
  have hdr : dateRename (json_normalize movs) = json_normalize movs :=
    dateRename_eq_self _ (by
      rw [json_normalize_cols]
      exact filter_eq_nil_of _ _ hdate)
  have hren : renameCols mapping (dateRename (json_normalize movs)) = json_normalize movs := by
    rw [hdr]
    unfold renameCols
    rw [json_normalize_cols]
    have hmapid : (collectCols movs).map (applyRen mapping) = collectCols movs := by
      rw [List.map_congr_left (fun c hc => applyRen_not_key mapping c (hmap c hc))]
      exact List.map_id _
    rw [hmapid]
    rfl
  have hs : sortStep (renameCols mapping (dateRename (json_normalize movs)))
      = some (json_normalize movs) := by
    rw [hren]
    exact sortStep_nofecha _ (by rw [json_normalize_cols]; exact hfecha)
  have hrowsne : ¬ (json_normalize movs).rows.isEmpty = true := by
    rw [List.isEmpty_iff]
    intro hnil
    have := json_normalize_rows_length movs
    rw [hnil] at this
    exact hne (List.eq_nil_of_length_eq_zero this.symm)
  have hcolsne : ¬ (json_normalize movs).cols.isEmpty = true := by
    rw [List.isEmpty_iff, json_normalize_cols]
    intro hnil
    obtain ⟨c, hc, -⟩ := hkey
    rw [hnil] at hc
    exact List.not_mem_nil c hc
  have hsubne : ¬ (keyColsOf (json_normalize movs).cols).isEmpty = true := by
    rw [List.isEmpty_iff, json_normalize_cols]
    obtain ⟨c, hc, hc4⟩ := hkey
    intro hnil
    have hc5 : c ∈ (["Fecha", "Concepto", "Debito", "Credito", "Saldo"] : List String) := by
      simp only [List.mem_cons, List.not_mem_nil, or_false] at hc4 ⊢
      tauto
    have : c ∈ keyColsOf (collectCols movs) := by
      unfold keyColsOf
      rw [List.mem_filter]
      exact ⟨hc5, List.elem_iff.mpr hc⟩
    rw [hnil] at this
    exact List.not_mem_nil c this
  have hd : drop_duplicates (json_normalize movs) (keyColsOf (json_normalize movs).cols)
      = some ⟨(json_normalize movs).cols,
        (dropDupAux (rowKey (json_normalize movs).cols (keyColsOf (json_normalize movs).cols))
          ((json_normalize movs).index.zip (json_normalize movs).rows) []).map Prod.fst,
        (dropDupAux (rowKey (json_normalize movs).cols (keyColsOf (json_normalize movs).cols))
          ((json_normalize movs).index.zip (json_normalize movs).rows) []).map Prod.snd⟩ := by
    unfold drop_duplicates
    rw [if_neg hrowsne, if_neg hcolsne, if_neg hsubne]
  have hE : estandarizar movs = some (reset_index ⟨(json_normalize movs).cols,
      (dropDupAux (rowKey (json_normalize movs).cols (keyColsOf (json_normalize movs).cols))
        ((json_normalize movs).index.zip (json_normalize movs).rows) []).map Prod.fst,
      (dropDupAux (rowKey (json_normalize movs).cols (keyColsOf (json_normalize movs).cols))
        ((json_normalize movs).index.zip (json_normalize movs).rows) []).map Prod.snd⟩) := by
    unfold estandarizar
    rw [if_neg (by simpa [List.isEmpty_iff] using hne)]
    rw [hs]
    dsimp only
    rw [hd]
  have hwf0 := json_normalize_wf movs
  have hzip : ((json_normalize movs).index.zip (json_normalize movs).rows).map Prod.snd
      = (json_normalize movs).rows :=
    List.map_snd_zip _ _ (le_of_eq hwf0.1.symm)
  refine ⟨_, hE, rfl, ?_, ?_, ?_⟩
  · show (dropDupAux _ _ []).map Prod.snd = _
    rw [← dropDup_spec (rowKey (json_normalize movs).cols
      (keyColsOf (json_normalize movs).cols)) _, hzip]
    rfl
  · show ((dropDupAux _ _ []).map Prod.snd).Sublist _
    have h1 := (dropDupAux_sublist (rowKey (json_normalize movs).cols
      (keyColsOf (json_normalize movs).cols))
      ((json_normalize movs).index.zip (json_normalize movs).rows) []).map Prod.snd
    rw [hzip] at h1
    exact h1
  · intro hnodup
    show (dropDupAux _ _ []).map Prod.snd = _
    rw [dropDupAux_eq_self _ _ _ ?_ (by simp), hzip]
    have : ((json_normalize movs).index.zip (json_normalize movs).rows).map
        (fun p => rowKey (json_normalize movs).cols (keyColsOf (json_normalize movs).cols) p.2)
        = (json_normalize movs).rows.map
          (rowKey (json_normalize movs).cols (keyColsOf (json_normalize movs).cols)) := by
      rw [show (fun p : Nat × List Val => rowKey (json_normalize movs).cols
        (keyColsOf (json_normalize movs).cols) p.2)
        = (rowKey (json_normalize movs).cols (keyColsOf (json_normalize movs).cols)) ∘ Prod.snd
        from rfl, ← List.map_map, hzip]
    rw [this]
    exact hnodup

/-- Witness for the amended C5: one record with a literal `Concepto` field
and an unknown field passes through untouched. -/
theorem C5_unknown_passthrough_witness :
    ∃ df, estandarizar [[("Concepto", Val.str "x"), ("foo", Val.str "y")]] = some df ∧
      df.cols = collectCols [[("Concepto", Val.str "x"), ("foo", Val.str "y")]] ∧
      df.rows = specDedupFirst
        (rowKey (collectCols [[("Concepto", Val.str "x"), ("foo", Val.str "y")]])
          (keyColsOf (collectCols [[("Concepto", Val.str "x"), ("foo", Val.str "y")]])))
        (json_normalize [[("Concepto", Val.str "x"), ("foo", Val.str "y")]]).rows ∧
      df.rows.Sublist (json_normalize [[("Concepto", Val.str "x"), ("foo", Val.str "y")]]).rows ∧
      (((json_normalize [[("Concepto", Val.str "x"), ("foo", Val.str "y")]]).rows.map
          (rowKey (collectCols [[("Concepto", Val.str "x"), ("foo", Val.str "y")]])
            (keyColsOf (collectCols [[("Concepto", Val.str "x"), ("foo", Val.str "y")]])))).Nodup →
        df.rows = (json_normalize [[("Concepto", Val.str "x"), ("foo", Val.str "y")]]).rows) :=
  C5_unknown_passthrough [[("Concepto", Val.str "x"), ("foo", Val.str "y")]]
    (by simp) (by decide) (by decide) (by decide) (by decide)

/-! ## Re-flattening facts for idempotence -/

theorem recFold_subset (r : Record) (acc : List String) (h : ∀ kv ∈ r, kv.1 ∈ acc) :
    r.foldl (fun a kv => insertCol a kv.1) acc = acc := by
  induction r generalizing acc with
  | nil => rfl
  | cons kv rest ih =>
    rw [List.foldl_cons]
    have h1 : insertCol acc kv.1 = acc := by
      unfold insertCol
      rw [if_pos (h kv (List.mem_cons_self kv rest))]
    rw [h1]
    exact ih acc (fun q hq => h q (List.mem_cons_of_mem kv hq))

theorem recFold_fresh (r : Record) (acc : List String) (hnd : (r.map Prod.fst).Nodup)
    (hdisj : ∀ kv ∈ r, kv.1 ∉ acc) :
    r.foldl (fun a kv => insertCol a kv.1) acc = acc ++ r.map Prod.fst := by
  induction r generalizing acc with
  | nil => simp
  | cons kv rest ih =>
    rw [List.foldl_cons]
    have h1 : insertCol acc kv.1 = acc ++ [kv.1] := by
      unfold insertCol
      rw [if_neg (hdisj kv (List.mem_cons_self kv rest))]
    rw [h1]
    rw [List.map_cons] at hnd
    rw [List.nodup_cons] at hnd
    rw [ih (acc ++ [kv.1]) hnd.2 ?_]
    · simp
    · intro q hq hmem
      rcases List.mem_append.mp hmem with hmem' | hmem'
      · exact hdisj q (List.mem_cons_of_mem kv hq) hmem'
      · exact hnd.1 ((List.mem_singleton.mp hmem') ▸ List.mem_map_of_mem Prod.fst hq)

theorem collectCols_toRecords (df : DF) (h1 : df.cols.Nodup)
    (h2 : ∀ r ∈ df.rows, df.cols.length ≤ r.length) (h3 : df.rows ≠ []) :
    collectCols (toRecords df) = df.cols := by
  rcases hrows : df.rows with _ | ⟨r0, rest⟩
  · exact absurd hrows h3
  · unfold toRecords collectCols
    rw [hrows, List.map_cons, List.foldl_cons]
    have hkeys : ∀ r ∈ df.rows, (df.cols.zip r).map Prod.fst = df.cols := by
      intro r hr
      exact List.map_fst_zip _ _ (h2 r hr)
    have hfirst : (df.cols.zip r0).foldl (fun a kv => insertCol a kv.1) [] = df.cols := by
      rw [recFold_fresh _ [] ?_ (by simp)]
      · rw [List.nil_append, hkeys r0 (hrows ▸ List.mem_cons_self r0 rest)]
      · rw [hkeys r0 (hrows ▸ List.mem_cons_self r0 rest)]
        exact h1
    rw [hfirst]
    have : ∀ (l : List (List Val)), (∀ r ∈ l, r ∈ df.rows) →
        (l.map (fun r => df.cols.zip r)).foldl
          (fun acc rec => rec.foldl (fun a kv => insertCol a kv.1) acc) df.cols = df.cols := by
      intro l
      induction l with
      | nil => intro _; rfl
      | cons q qs ih =>
        intro hmem
        rw [List.map_cons, List.foldl_cons]
        have hq : (df.cols.zip q).foldl (fun a kv => insertCol a kv.1) df.cols = df.cols := by
          refine recFold_subset _ _ ?_
          intro kv hkv
          have := List.mem_map_of_mem Prod.fst hkv
          rw [hkeys q (hmem q (List.mem_cons_self q qs))] at this
          exact this
        rw [hq]
        exact ih (fun r hr => hmem r (List.mem_cons_of_mem q hr))
    exact this rest (fun r hr => hrows ▸ List.mem_cons_of_mem r0 hr)

theorem recGet_cons_self (c : String) (v : Val) (l : Record) :
    recGet ((c, v) :: l) c = v := by
  unfold recGet
  rw [List.find?_cons_of_pos _ (by simp)]
  rfl

theorem recGet_cons_ne (c c' : String) (v : Val) (l : Record) (h : c ≠ c') :
    recGet ((c, v) :: l) c' = recGet l c' := by
  unfold recGet
  rw [List.find?_cons_of_neg _ (by simp [h])]

theorem map_recGet_zip (cols : List String) (r : List Val) (h1 : cols.Nodup)
    (h2 : r.length = cols.length) :
    cols.map (recGet (cols.zip r)) = r := by
  induction cols generalizing r with
  | nil =>
    rw [List.length_nil, List.length_eq_zero] at h2
    rw [h2]
    rfl
  | cons c cs ih =>
    rcases r with _ | ⟨v, vs⟩
    · exact absurd h2.symm (by simp)
    · rw [List.nodup_cons] at h1
      rw [List.zip_cons_cons, List.map_cons, recGet_cons_self]
      have hrest : cs.map (recGet ((c, v) :: cs.zip vs)) = cs.map (recGet (cs.zip vs)) := by
        refine List.map_congr_left ?_
        intro x hx
        exact recGet_cons_ne c x v (cs.zip vs) (fun hcx => h1.1 (hcx ▸ hx))
      rw [hrest, ih vs h1.2 (by simpa using h2)]

theorem dropDupAux_ne_nil (key : List Val → List Val) (l : List (Nat × List Val))
    (hne : l ≠ []) : dropDupAux key l [] ≠ [] := by
  rcases l with _ | ⟨p, rest⟩
  · exact absurd rfl hne
  · unfold dropDupAux
    rw [if_neg (List.not_mem_nil _)]
    simp

/-! ## More facts about the first normalization pass -/

theorem estandarizar_rows_ne (movs : List Record) (df : DF) (hne : movs ≠ [])
    (h : estandarizar movs = some df) : df.rows ≠ [] := by
  obtain ⟨df3, df4, h3, h4, hdf⟩ := estandarizar_some_elim movs df hne h
  have hwf2 : WF (renameCols mapping (dateRename (json_normalize movs))) :=
    renameCols_wf _ _ (dateRename_wf _ (json_normalize_wf _))
  have hwf3 : WF df3 := sortStep_wf _ _ h3 hwf2
  have hlen3 : df3.rows.length = movs.length := by
    rw [sortStep_rows_length _ _ h3 hwf2, stage_rows, json_normalize_rows_length]
  have hrows3 : df3.rows ≠ [] := by
    intro hnil
    rw [hnil] at hlen3
    exact hne (List.eq_nil_of_length_eq_zero hlen3.symm)
  obtain ⟨-, -, hdf4⟩ := drop_duplicates_some_elim df3 _ df4
    (by rw [List.isEmpty_iff]; exact hrows3) h4
  rw [hdf]
  show df4.rows ≠ []
  rw [hdf4]
  dsimp only
  intro hnil
  rw [List.map_eq_nil] at hnil
  refine dropDupAux_ne_nil _ _ ?_ hnil
  intro hzip
  have := congrArg List.length hzip
  rw [List.length_zip, hwf3.1, Nat.min_self, hlen3] at this
  exact hne (List.eq_nil_of_length_eq_zero this)

theorem estandarizar_key_facts (movs : List Record) (df : DF) (hne : movs ≠ [])
    (h : estandarizar movs = some df) :
    df.cols ≠ [] ∧ keyColsOf df.cols ≠ [] := by
  obtain ⟨df3, df4, h3, h4, hdf⟩ := estandarizar_some_elim movs df hne h
  have hwf2 : WF (renameCols mapping (dateRename (json_normalize movs))) :=
    renameCols_wf _ _ (dateRename_wf _ (json_normalize_wf _))
  have hwf3 : WF df3 := sortStep_wf _ _ h3 hwf2
  have hlen3 : df3.rows.length = movs.length := by
    rw [sortStep_rows_length _ _ h3 hwf2, stage_rows, json_normalize_rows_length]
  have hrows3 : df3.rows ≠ [] := by
    intro hnil
    rw [hnil] at hlen3
    exact hne (List.eq_nil_of_length_eq_zero hlen3.symm)
  obtain ⟨hc, hs, hdf4⟩ := drop_duplicates_some_elim df3 _ df4
    (by rw [List.isEmpty_iff]; exact hrows3) h4
  rw [List.isEmpty_iff] at hc hs
  have hcols : df.cols = df3.cols := by
    rw [hdf]
    show df4.cols = df3.cols
    rw [hdf4]
  rw [hcols]
  exact ⟨hc, hs⟩

theorem estandarizar_nokey (movs : List Record) (df : DF) (hne : movs ≠ [])
    (h : estandarizar movs = some df) :
    ∀ c ∈ df.cols, mapping.find? (fun kv => kv.1 == c) = none := by
  intro c hc
  rw [estandarizar_cols movs df hne h] at hc
  obtain ⟨c', -, rfl⟩ := List.mem_map.mp hc
  exact applyRen_mapping_not_key c'

theorem estandarizar_keys_nodup (movs : List Record) (df : DF)
    (h : estandarizar movs = some df) :
    (df.rows.map (rowKey df.cols (keyColsOf df.cols))).Nodup := by
  rcases movs with _ | ⟨m, ms⟩
  · rw [estandarizar_nil df h]
    simp
  · obtain ⟨df3, df4, h3, h4, hdf⟩ := estandarizar_some_elim _ df (by simp) h
    have hwf2 : WF (renameCols mapping (dateRename (json_normalize (m :: ms)))) :=
      renameCols_wf _ _ (dateRename_wf _ (json_normalize_wf _))
    have hwf3 : WF df3 := sortStep_wf _ _ h3 hwf2
    have hlen3 : df3.rows.length = (m :: ms).length := by
      rw [sortStep_rows_length _ _ h3 hwf2, stage_rows, json_normalize_rows_length]
    have hrows3 : ¬ df3.rows.isEmpty = true := by
      rw [List.isEmpty_iff]
      intro hnil
      rw [hnil] at hlen3
      exact absurd hlen3.symm (by simp)
    obtain ⟨-, -, hdf4⟩ := drop_duplicates_some_elim df3 _ df4 hrows3 h4
    have hcols : df.cols = df3.cols := by
      rw [hdf]
      show df4.cols = df3.cols
      rw [hdf4]
    have hrows : df.rows =
        (dropDupAux (rowKey df3.cols (keyColsOf df3.cols)) (df3.index.zip df3.rows) []).map
          Prod.snd := by
      rw [hdf]
      show df4.rows = _
      rw [hdf4]
    rw [hrows, hcols, List.map_map]
    have := (dropDupAux_nodup (rowKey df3.cols (keyColsOf df3.cols))
      (df3.index.zip df3.rows) []).1
    convert this using 2

theorem estandarizar_fecha_cells (movs : List Record) (df : DF)
    (h : estandarizar movs = some df) (hf : ("Fecha" : String) ∈ df.cols) :
    ∀ r ∈ df.rows, isDtNan (r.getD (fechaIdx df.cols) Val.nan) := by
  rcases movs with _ | ⟨m, ms⟩
  · rw [estandarizar_nil df h]
    intro r hr
    exact absurd hr (List.not_mem_nil r)
  · obtain ⟨df3, df4, h3, h4, hdf⟩ := estandarizar_some_elim _ df (by simp) h
    have hwf2 : WF (renameCols mapping (dateRename (json_normalize (m :: ms)))) :=
      renameCols_wf _ _ (dateRename_wf _ (json_normalize_wf _))
    have hwf3 : WF df3 := sortStep_wf _ _ h3 hwf2
    have hlen3 : df3.rows.length = (m :: ms).length := by
      rw [sortStep_rows_length _ _ h3 hwf2, stage_rows, json_normalize_rows_length]
    have hrows3 : ¬ df3.rows.isEmpty = true := by
      rw [List.isEmpty_iff]
      intro hnil
      rw [hnil] at hlen3
      exact absurd hlen3.symm (by simp)
    obtain ⟨-, -, hdf4⟩ := drop_duplicates_some_elim df3 _ df4 hrows3 h4
    have hcols23 : df3.cols = (renameCols mapping (dateRename (json_normalize (m :: ms)))).cols :=
      sortStep_some_cols _ df3 h3
    have hcols : df.cols = df3.cols := by
      rw [hdf]
      show df4.cols = df3.cols
      rw [hdf4]
    have hrows : df.rows =
        (dropDupAux (rowKey df3.cols (keyColsOf df3.cols)) (df3.index.zip df3.rows) []).map
          Prod.snd := by
      rw [hdf]
      show df4.rows = _
      rw [hdf4]
    have hsubrows : df.rows.Sublist df3.rows := by
      rw [hrows]
      have hx := (dropDupAux_sublist (rowKey df3.cols (keyColsOf df3.cols))
        (df3.index.zip df3.rows) []).map Prod.snd
      rw [List.map_snd_zip _ _ (le_of_eq hwf3.1.symm)] at hx
      exact hx
    have hf3 : ("Fecha" : String) ∈
        (renameCols mapping (dateRename (json_normalize (m :: ms)))).cols := by
      rw [← hcols23, ← hcols]
      exact hf
    obtain ⟨-, rs, hrs, hdf3⟩ := sortStep_fecha_elim _ df3 hf3 h3
    intro r hr
    have hr3 : r ∈ df3.rows := hsubrows.mem hr
    rw [hdf3] at hr3
    obtain ⟨p, hp, rfl⟩ := List.mem_map.mp hr3
    have hp' : p ∈ (renameCols mapping (dateRename (json_normalize (m :: ms)))).index.zip rs :=
      (sortLe_perm _ _).mem_iff.mp hp
    have hsnd : p.2 ∈ rs := (List.of_mem_zip hp').2
    obtain ⟨hdt, -⟩ := parseRows_some_mem _ _ _ hrs p.2 hsnd
    rw [hcols, hcols23]
    exact hdt

theorem estandarizar_fecha_sorted (movs : List Record) (df : DF)
    (h : estandarizar movs = some df) (hf : ("Fecha" : String) ∈ df.cols) :
    df.rows.Pairwise (fun r s => leRowAt (fechaIdx df.cols) r s = true) := by
  rcases movs with _ | ⟨m, ms⟩
  · rw [estandarizar_nil df h]
    exact List.Pairwise.nil
  · obtain ⟨df3, df4, h3, h4, hdf⟩ := estandarizar_some_elim _ df (by simp) h
    have hwf2 : WF (renameCols mapping (dateRename (json_normalize (m :: ms)))) :=
      renameCols_wf _ _ (dateRename_wf _ (json_normalize_wf _))
    have hwf3 : WF df3 := sortStep_wf _ _ h3 hwf2
    have hlen3 : df3.rows.length = (m :: ms).length := by
      rw [sortStep_rows_length _ _ h3 hwf2, stage_rows, json_normalize_rows_length]
    have hrows3 : ¬ df3.rows.isEmpty = true := by
      rw [List.isEmpty_iff]
      intro hnil
      rw [hnil] at hlen3
      exact absurd hlen3.symm (by simp)
    obtain ⟨-, -, hdf4⟩ := drop_duplicates_some_elim df3 _ df4 hrows3 h4
    have hcols23 : df3.cols = (renameCols mapping (dateRename (json_normalize (m :: ms)))).cols :=
      sortStep_some_cols _ df3 h3
    have hcols : df.cols = df3.cols := by
      rw [hdf]
      show df4.cols = df3.cols
      rw [hdf4]
    have hrows : df.rows =
        (dropDupAux (rowKey df3.cols (keyColsOf df3.cols)) (df3.index.zip df3.rows) []).map
          Prod.snd := by
      rw [hdf]
      show df4.rows = _
      rw [hdf4]
    have hsubrows : df.rows.Sublist df3.rows := by
      rw [hrows]
      have hx := (dropDupAux_sublist (rowKey df3.cols (keyColsOf df3.cols))
        (df3.index.zip df3.rows) []).map Prod.snd
      rw [List.map_snd_zip _ _ (le_of_eq hwf3.1.symm)] at hx
      exact hx
    have hf3 : ("Fecha" : String) ∈
        (renameCols mapping (dateRename (json_normalize (m :: ms)))).cols := by
      rw [← hcols23, ← hcols]
      exact hf
    obtain ⟨-, rs, hrs, hdf3⟩ := sortStep_fecha_elim _ df3 hf3 h3
    have hsorted3 : df3.rows.Pairwise
        (fun r s => leRowAt (fechaIdx
          (renameCols mapping (dateRename (json_normalize (m :: ms)))).cols) r s = true) := by
      rw [hdf3]
      show (List.map Prod.snd _).Pairwise _
      rw [List.pairwise_map]
      exact sortLe_pairwise
        (fun (a b : Nat × List Val) => leRowAt (fechaIdx
          (renameCols mapping (dateRename (json_normalize (m :: ms)))).cols) a.2 b.2)
        (fun (a b c : Nat × List Val) hab hbc => leRowAt_trans _ a.2 b.2 c.2 hab hbc)
        (fun (a b : Nat × List Val) => leRowAt_total _ a.2 b.2) _
    rw [hcols, hcols23]
    exact hsorted3.sublist hsubrows

/-- C2 counterexample: one record with two date-like fields normalizes
fine (the first becomes `Fecha`, `dueDate` passes through), but
re-normalizing the re-flattened output renames `dueDate` to `Fecha` as
well, duplicating the column, and `pd.to_datetime(df["Fecha"])` then
raises — the second normalization fails instead of reproducing the rows. -/
theorem C2_counterexample :
    estandarizar [[("valueDate", Val.str "2024-06-07"), ("dueDate", Val.str "2024-06-08")]] =
      some ⟨["Fecha", "dueDate"], [0], [[Val.dt 1717718400000000000, Val.str "2024-06-08"]]⟩ ∧
    estandarizar (toRecords ⟨["Fecha", "dueDate"], [0],
      [[Val.dt 1717718400000000000, Val.str "2024-06-08"]]⟩) = none :=
  ⟨by decide, by decide⟩

/-- C2 (amended): normalizing is idempotent on outputs whose column names
are pairwise distinct and contain no further date-like name: re-flattening
such an output and normalizing it again returns exactly the same frame —
same rows, no new duplicates, nothing added or removed. -/
theorem C2_idempotent (movs : List Record) (df : DF)
    (h : estandarizar movs = some df)
    (hnodup : df.cols.Nodup)
    (hnodate : ∀ c ∈ df.cols, containsDate c = false) :
    estandarizar (toRecords df) = some df := by
  rcases hmovs : movs with _ | ⟨m, ms⟩
  · subst hmovs
    rw [estandarizar_nil df h]
    rfl
  · subst hmovs
    have hne : (m :: ms) ≠ [] := by simp
    have hwf := estandarizar_wf _ _ h
    have hidx := estandarizar_index _ _ h
    have hrowsne : df.rows ≠ [] := estandarizar_rows_ne _ _ hne h
    have hnokey := estandarizar_nokey _ _ hne h
    have hkeysnd := estandarizar_keys_nodup _ _ h
    obtain ⟨hcolsne, hkeyne⟩ := estandarizar_key_facts _ _ hne h
    have hcc : collectCols (toRecords df) = df.cols :=
      collectCols_toRecords df hnodup (fun r hr => le_of_eq (hwf.2 r hr).symm) hrowsne
    have hA : json_normalize (toRecords df) =
        ⟨df.cols, List.range df.rows.length, df.rows⟩ := by
      unfold json_normalize
      dsimp only
      rw [hcc]
      have hlenA : List.range (toRecords df).length = List.range df.rows.length := by
        unfold toRecords
        rw [List.length_map]
      have hrowsA : (toRecords df).map (fun r => df.cols.map (fun c => recGet r c))
          = df.rows := by
        unfold toRecords
        rw [List.map_map]
        refine (List.map_congr_left ?_).trans (List.map_id _)
        intro r hr
        exact map_recGet_zip df.cols r hnodup (hwf.2 r hr)
      rw [hlenA, hrowsA]
    have hfill : df.cols.filter containsDate = [] := filter_eq_nil_of _ _ hnodate
    have hBC : renameCols mapping (dateRename (json_normalize (toRecords df)))
        = ⟨df.cols, List.range df.rows.length, df.rows⟩ := by
      rw [hA]
      rw [dateRename_eq_self _ (by exact hfill)]
      unfold renameCols
      dsimp only
      rw [List.map_congr_left (fun c hc => applyRen_not_key mapping c (hnokey c hc)),
        List.map_id']
    have hE : sortStep (⟨df.cols, List.range df.rows.length, df.rows⟩ : DF)
        = some ⟨df.cols, List.range df.rows.length, df.rows⟩ := by
      by_cases hf : ("Fecha" : String) ∈ df.cols
      · refine sortStep_id _ hf ?_ (by simp) ?_ ?_
        · intro hcnt
          have hcnt' : 2 ≤ df.cols.count ("Fecha") := hcnt
          have := List.nodup_iff_count_le_one.mp hnodup ("Fecha")
          omega
        · exact fun r hr => estandarizar_fecha_cells (m :: ms) df h hf r hr
        · exact estandarizar_fecha_sorted (m :: ms) df h hf
      · exact sortStep_nofecha _ hf
    have hF : drop_duplicates (⟨df.cols, List.range df.rows.length, df.rows⟩ : DF)
        (keyColsOf df.cols) = some ⟨df.cols, List.range df.rows.length, df.rows⟩ := by
      refine drop_duplicates_id _ _ ?_ ?_ (by simp) ?_
      · rw [List.isEmpty_iff]
        exact hcolsne
      · rw [List.isEmpty_iff]
        exact hkeyne
      · exact hkeysnd
    have hne2 : toRecords df ≠ [] := by
      unfold toRecords
      intro hnil
      rw [List.map_eq_nil] at hnil
      exact hrowsne hnil
    have hreset : reset_index (⟨df.cols, List.range df.rows.length, df.rows⟩ : DF) = df := by
      unfold reset_index
      dsimp only
      rw [← hidx]
    unfold estandarizar
    rw [if_neg (by simpa [List.isEmpty_iff] using hne2)]
    rw [hBC, hE]
    dsimp only
    rw [hF]
    dsimp only
    rw [hreset]

/-- Witness for the amended C2: the spec's end-to-end example record
normalizes to a frame that re-normalizes to itself. -/
theorem C2_idempotent_witness :
    estandarizar (toRecords ⟨["Concepto", "Debito", "Fecha"], [0],
      [[Val.str "Pago", Val.num 100, Val.dt 1717718400000000000]]⟩) =
      some ⟨["Concepto", "Debito", "Fecha"], [0],
        [[Val.str "Pago", Val.num 100, Val.dt 1717718400000000000]]⟩ :=
  C2_idempotent
    [[("description", Val.str "Pago"), ("debitAmount", Val.num 100),
      ("valueDate", Val.str "2024-06-07")]]
    ⟨["Concepto", "Debito", "Fecha"], [0],
      [[Val.str "Pago", Val.num 100, Val.dt 1717718400000000000]]⟩
    (by decide) (by decide) (by decide)
